import Mathlib

/-! Huffman codec (HuffmanAlgorithm.cpp): embedding and verified properties.

The C++ program is embedded as pure functions.

* `char` is a byte (`CChar = Fin 256`); `std::string` is a list of bytes, also for
  the encoded text, whose "bits" are the characters `'0'` (48) and `'1'` (49).
* `HuffmanNode*` is the type `HuffmanNode`: `null`, or an allocated node with its four
  fields.  The trees the program builds are never shared, so pointers are values.
* `int` is a 32-bit two's-complement integer: the results of `freqTable[c]++` and of
  `left->frequency + right->frequency` are reduced by `wrap32` to the range from
  `-2^31` to `2^31 - 1`, which is what the compiled program does on overflow.
* `std::unordered_map<char,int>` is an association list with distinct keys, read in
  its iteration order.  That order is unspecified in C++, so results about the
  pipeline are stated for every permutation of the table.
* `std::priority_queue<HuffmanNode*, vector, Compare>` is the list of its elements in
  insertion order.  `top()` returns an element that `Compare` ranks below no
  other one; which one, when several qualify, is unspecified in C++ and is
  settled here by a parameter `tie`.
* Undefined behaviour (`top()` of an empty queue, a null dereference, the use of an
  uninitialised variable) and the `std::out_of_range` thrown by `at` are the result
  `none`.
* The file streams are the characters written, respectively still to be read, with
  the formatted operators `<<` and `>>` of the standard library in the "C" locale.
-/

namespace Huffman

/-- A C++ `char`: one byte. -/
abbrev CChar := Fin 256

/-- A `std::string`. -/
abbrev CString := List CChar

/-- The character `'0'`. -/
abbrev c0 : CChar := 48

/-- The character `'1'`. -/
abbrev c1 : CChar := 49

/-- The character `'\0'`, which the program stores in the nodes it creates by merging. -/
abbrev NUL : CChar := 0

/-- A `HuffmanNode*`: the null pointer, or a node with `data`, `frequency`,
`left` and `right`. -/
inductive HuffmanNode where
  | null : HuffmanNode
  | node (data : CChar) (frequency : Int) (left right : HuffmanNode) : HuffmanNode
  deriving DecidableEq, Repr

/-- The constructor `HuffmanNode(data, frequency)`: both children are null. -/
def HuffmanNode.new (data : CChar) (frequency : Int) : HuffmanNode :=
  .node data frequency .null .null

/-- The field `frequency` of an allocated node (the program only reads it from
nodes taken out of the queue, which are never null). -/
def HuffmanNode.frequency : HuffmanNode → Int
  | .null => 0
  | .node _ f _ _ => f

/-- The value a 32-bit `int` holds after an arithmetic result `v`: `v` reduced modulo
`2^32` to the range from `-2^31` to `2^31 - 1`. -/
def wrap32 (v : Int) : Int :=
  (v + 2147483648) % 4294967296 - 2147483648

/-- The operator of `struct Compare`: `a->frequency > b->frequency`. -/
def Compare (a b : HuffmanNode) : Bool :=
  decide (a.frequency > b.frequency)

/-- A `std::unordered_map<char,int>`, as the sequence of its entries in iteration order. -/
abbrev FreqTable := List (CChar × Int)

/-- The statement `freqTable[c]++`: a missing key is first inserted with value 0; the
incremented value is stored in a 32-bit `int`. -/
def FreqTable.incr (c : CChar) : FreqTable → FreqTable
  | [] => [(c, wrap32 (0 + 1))]
  | (k, v) :: rest =>
    if k = c then (k, wrap32 (v + 1)) :: rest else (k, v) :: FreqTable.incr c rest

/-- Lookup of a key in a frequency table. -/
def FreqTable.find (c : CChar) : FreqTable → Option Int
  | [] => none
  | (k, v) :: rest => if k = c then some v else FreqTable.find c rest

/-- The function `buildFrequencyTable`: one `freqTable[c]++` per character of the text. -/
def buildFrequencyTable (text : CString) : FreqTable :=
  text.foldl (fun tbl c => FreqTable.incr c tbl) []

/-- The content of the priority queue, in insertion order. -/
abbrev PQ := List HuffmanNode

/-- Positions of the elements `top()` may return: those `x` with `Compare x y` false
for every element `y`, that is, the elements of least frequency. -/
def topCandidates (pq : PQ) : List Nat :=
  (List.range pq.length).filter
    (fun i => pq.all (fun y => !Compare (pq.getD i .null) y))

/-- The position of the element `top()` returns, chosen by `tie` among the candidates. -/
def pqTopIdx (tie : PQ → Nat) (pq : PQ) : Nat :=
  (topCandidates pq).getD (tie pq % (topCandidates pq).length) 0

/-- The call `pq.top()`; `none` on an empty queue, where C++ leaves it undefined. -/
def pqTop (tie : PQ → Nat) (pq : PQ) : Option HuffmanNode :=
  pq[pqTopIdx tie pq]?

/-- The call `pq.pop()`: removes the element `top()` returns. -/
def pqPop (tie : PQ → Nat) (pq : PQ) : PQ :=
  pq.eraseIdx (pqTopIdx tie pq)

/-- The call `pq.push(x)`. -/
def pqPush (pq : PQ) (x : HuffmanNode) : PQ :=
  pq ++ [x]

/-- The first loop of `buildHuffmanTree`: one new leaf pushed per table entry. -/
def pushLeaves (freqTable : FreqTable) : PQ :=
  freqTable.foldl (fun pq pair => pqPush pq (HuffmanNode.new pair.1 pair.2)) []

/-- The loop `while (pq.size() > 1)` of `buildHuffmanTree`.  Every iteration shrinks
the queue by one, so the initial size is enough fuel.  The frequency of the new node
is the `int` sum `left->frequency + right->frequency`. -/
def mergeLoop (tie : PQ → Nat) : Nat → PQ → Option PQ
  | 0, pq => if 1 < pq.length then none else some pq
  | fuel + 1, pq =>
    if 1 < pq.length then
      match pqTop tie pq with
      | none => none
      | some left =>
        match pqTop tie (pqPop tie pq) with
        | none => none
        | some right =>
          mergeLoop tie fuel
            (pqPush (pqPop tie (pqPop tie pq))
              (.node NUL (wrap32 (left.frequency + right.frequency)) left right))
    else some pq

/-- The function `buildHuffmanTree`; `none` when `pq.top()` is called on an empty queue. -/
def buildHuffmanTree (tie : PQ → Nat) (freqTable : FreqTable) : Option HuffmanNode :=
  match mergeLoop tie (pushLeaves freqTable).length (pushLeaves freqTable) with
  | none => none
  | some pq => pqTop tie pq

/-- A `std::unordered_map<char,std::string>`, by what a lookup returns. -/
abbrev CodeTable := CChar → Option CString

/-- The empty code table. -/
def CodeTable.empty : CodeTable := fun _ => none

/-- The assignment `codeTable[k] = v`. -/
def CodeTable.set (tbl : CodeTable) (k : CChar) (v : CString) : CodeTable :=
  fun c => if c = k then some v else tbl c

/-- The function `buildHuffmanCodeTable(root, codeTable, code)`, returning the updated table. -/
def buildHuffmanCodeTable : HuffmanNode → CodeTable → CString → CodeTable
  | .null, tbl, _ => tbl
  | .node data _ left right, tbl, code =>
    let tbl1 := if data ≠ NUL then tbl.set data code else tbl
    let tbl2 := buildHuffmanCodeTable left tbl1 (code ++ [c0])
    buildHuffmanCodeTable right tbl2 (code ++ [c1])

/-- The code table as `compressFile` obtains it: an empty map filled from the root
with the default `code = ""`. -/
def codeTableOf (root : HuffmanNode) : CodeTable :=
  buildHuffmanCodeTable root CodeTable.empty []

/-- The loop of `encodeText`; `none` is the `std::out_of_range` of `codeTable.at(c)`. -/
def encodeLoop (codeTable : CodeTable) : CString → CString → Option CString
  | [], encodedText => some encodedText
  | c :: rest, encodedText =>
    match codeTable c with
    | none => none
    | some code => encodeLoop codeTable rest (encodedText ++ code)

/-- The function `encodeText`. -/
def encodeText (text : CString) (codeTable : CodeTable) : Option CString :=
  encodeLoop codeTable text []

/-- The loop of `decodeText`, from position `curr` with `decodedText` so far; `none`
is a null dereference (`curr->left` or `curr->right` with `curr` null). -/
def decodeLoop (root : HuffmanNode) : CString → HuffmanNode → CString → Option CString
  | [], _, decodedText => some decodedText
  | bit :: rest, curr, decodedText =>
    match curr with
    | .null => none
    | .node _ _ left right =>
      match (if bit = c0 then left else right) with
      | .null => none
      | .node data f l r =>
        if l = .null ∧ r = .null then decodeLoop root rest root (decodedText ++ [data])
        else decodeLoop root rest (.node data f l r) decodedText

/-- The function `decodeText`. -/
def decodeText (encodedText : CString) (root : HuffmanNode) : Option CString :=
  decodeLoop root encodedText root []

/-- The `top()` that prefers the element pushed first among those of least frequency. -/
def tieFirst : PQ → Nat := fun _ => 0

/-- The `top()` that prefers the element pushed last among those of least frequency. -/
def tieLast : PQ → Nat := fun pq => (topCandidates pq).length - 1

/-! ## Trees as the program builds them -/

/-- The shape of every node `buildHuffmanTree` creates: a leaf made by
`HuffmanNode(data, frequency)`, or a merge node holding `NUL`, the sum of its
children's frequencies, and two such nodes as children. -/
inductive WellFormed : HuffmanNode → Prop
  | leaf (d : CChar) (f : Int) : WellFormed (.node d f .null .null)
  | inner (l r : HuffmanNode) : WellFormed l → WellFormed r →
      WellFormed (.node NUL (wrap32 (l.frequency + r.frequency)) l r)

/-- The leaves (nodes without children) of a tree, left to right, as `(data, frequency)`. -/
def leaves : HuffmanNode → List (CChar × Int)
  | .null => []
  | .node d f l r => if l = .null ∧ r = .null then [(d, f)] else leaves l ++ leaves r

/-- The leaves of a tree, left to right, each with the path leading to it from the
root: `'0'` for a step to the left child, `'1'` for a step to the right child. -/
def leafCodes : HuffmanNode → List (CChar × CString)
  | .null => []
  | .node d _ l r =>
    if l = .null ∧ r = .null then [(d, [])]
    else (leafCodes l).map (fun e => (e.1, c0 :: e.2)) ++
         (leafCodes r).map (fun e => (e.1, c1 :: e.2))

/-- The number of nodes with children. -/
def internalCount : HuffmanNode → Nat
  | .null => 0
  | .node _ _ l r => if l = .null ∧ r = .null then 0 else internalCount l + internalCount r + 1

/-- The codec steps of `compressFile` on `text`, whose table is enumerated as
`tableAtCompress`, followed by those of `decompressFile`, which rebuilds the tree from
the reloaded table, enumerated as `tableAtDecompress`, and decodes. -/
def compressThenDecompress (tie : PQ → Nat) (tableAtCompress tableAtDecompress : FreqTable)
    (text : CString) : Option CString :=
  match buildHuffmanTree tie tableAtCompress with
  | none => none
  | some root =>
    match encodeText text (codeTableOf root) with
    | none => none
    | some encodedText =>
      match buildHuffmanTree tie tableAtDecompress with
      | none => none
      | some root2 => decodeText encodedText root2

/-- Encoding and decoding against one and the same tree, built from `freqTable`:
`decodeText(encodeText(text, codeTable(T)), T)`. -/
def codec (tie : PQ → Nat) (freqTable : FreqTable) (text : CString) : Option CString :=
  match buildHuffmanTree tie freqTable with
  | none => none
  | some root =>
    match encodeText text (codeTableOf root) with
    | none => none
    | some encodedText => decodeText encodedText root

/-- Every node of the tree has no child or two children (and the tree is not null). -/
def strictlyBinary : HuffmanNode → Bool
  | .null => false
  | .node _ _ l r =>
    (decide (l = .null) && decide (r = .null)) ||
    (strictlyBinary l && strictlyBinary r)

/-- All allocated nodes of a tree: the root first, then those of the left and of the
right subtree. -/
def nodes : HuffmanNode → List HuffmanNode
  | .null => []
  | .node d f l r => .node d f l r :: (nodes l ++ nodes r)

/-- The body of the loop of `buildHuffmanTree`: two `top()`/`pop()` pairs, the new
node with the first as left and the second as right child, and its `push`. -/
def mergeStep (tie : PQ → Nat) (pq : PQ) : Option PQ :=
  match pqTop tie pq with
  | none => none
  | some left =>
    match pqTop tie (pqPop tie pq) with
    | none => none
    | some right =>
      some (pqPush (pqPop tie (pqPop tie pq))
        (.node NUL (wrap32 (left.frequency + right.frequency)) left right))

/-- The queue after `n` executions of the loop body. -/
def mergeSteps (tie : PQ → Nat) : Nat → PQ → Option PQ
  | 0, pq => some pq
  | n + 1, pq =>
    match mergeStep tie pq with
    | none => none
    | some pq1 => mergeSteps tie n pq1

/-- The body of the loop of `decodeText` on the state `(curr, decodedText)`. -/
def decodeStep (root : HuffmanNode) (state : HuffmanNode × CString) (bit : CChar) :
    Option (HuffmanNode × CString) :=
  match state.1 with
  | .null => none
  | .node _ _ left right =>
    match (if bit = c0 then left else right) with
    | .null => none
    | .node data f l r =>
      if l = .null ∧ r = .null then some (root, state.2 ++ [data])
      else some (.node data f l r, state.2)

/-- The state `(curr, decodedText)` of `decodeText` after the loop has consumed the
given characters, starting from `state`. -/
def decodeRun (root : HuffmanNode) : CString → HuffmanNode × CString →
    Option (HuffmanNode × CString)
  | [], state => some state
  | bit :: rest, state =>
    match decodeStep root state bit with
    | none => none
    | some next => decodeRun root rest next

/-- The weighted path length of a tree: the sum over its leaves of frequency times
depth, the root being at depth `depth`. -/
def weightedPathLength : HuffmanNode → Nat → Int
  | .null, _ => 0
  | .node _ f l r, depth =>
    if l = .null ∧ r = .null then f * depth
    else weightedPathLength l (depth + 1) + weightedPathLength r (depth + 1)

/-- An allocated node both of whose children are allocated. -/
def hasTwoChildren : HuffmanNode → Bool
  | .null => false
  | .node _ _ l r => decide (l ≠ .null) && decide (r ≠ .null)

/-! ## The container: what `compressFile` writes and `decompressFile` reads

The stream operators are those of the C++ standard library in the "C" locale: `<<`
writes a `char` as it is and an integer in decimal; `>>` first skips white space, then
reads one `char`, or an optional sign and the decimal digits that follow; `ignore()`
drops one character. A stream that has failed or reached its end does nothing on
further reads and leaves the variable as it was. -/

/-- The decimal digit `d` as a character. -/
def digitChar (d : Nat) : CChar := Fin.ofNat (48 + d)

/-- The digits of `n`, most significant first, before `acc`. -/
def showNatAux : Nat → Nat → CString → CString
  | 0, _, acc => acc
  | fuel + 1, n, acc =>
    if n < 10 then digitChar n :: acc
    else showNatAux fuel (n / 10) (digitChar (n % 10) :: acc)

/-- The output of `<<` for an unsigned value: `n` in decimal. -/
def showNat (n : Nat) : CString := showNatAux (n + 1) n []

/-- The output of `<<` for an `int`: decimal, with `-` before a negative value. -/
def showInt (v : Int) : CString :=
  if v < 0 then (45 : CChar) :: showNat (-v).toNat else showNat v.toNat

/-- The writes of `compressFile`: the table size and a newline; for every entry the
symbol, a space, the frequency and a newline; then the encoded text. -/
def writeContainer (freqTable : FreqTable) (encodedText : CString) : CString :=
  showNat freqTable.length ++ [10] ++
  freqTable.flatMap (fun pair => [pair.1, 32] ++ showInt pair.2 ++ [10]) ++
  encodedText

/-- An input stream: the characters not yet read, and whether the stream is still
good (neither failed nor at its end). -/
structure IStream where
  rest : CString
  good : Bool
  deriving DecidableEq, Repr

/-- White space of the "C" locale: tab, newline, vertical tab, form feed, carriage
return and space. -/
def isSpace (c : CChar) : Bool := (9 ≤ c.val && c.val ≤ 13) || c.val = 32

/-- A decimal digit. -/
def isDigit (c : CChar) : Bool := 48 ≤ c.val && c.val ≤ 57

/-- The value of a string of decimal digits. -/
def digitsValue (ds : CString) : Nat :=
  ds.foldl (fun acc c => acc * 10 + (c.val - 48)) 0

/-- The operator `>>` on a `char` variable holding `old` (`none`: not initialised). -/
def readChar (s : IStream) (old : Option CChar) : IStream × Option CChar :=
  if s.good then
    match s.rest.dropWhile isSpace with
    | [] => ({ rest := [], good := false }, old)
    | c :: rest => ({ rest := rest, good := true }, some c)
  else ({ rest := s.rest, good := false }, old)

/-- The operator `>>` on an `int` variable holding `old`: white space is skipped, then
an optional sign and the digits are read; without a digit the read fails and stores 0;
a value out of the range of `int` fails and stores the nearest bound. -/
def readInt (s : IStream) (old : Option Int) : IStream × Option Int :=
  if s.good then
    match s.rest.dropWhile isSpace with
    | [] => ({ rest := [], good := false }, old)
    | c :: rest =>
      let negative := decide (c = 45)
      let body := if c = 45 ∨ c = 43 then rest else c :: rest
      let ds := body.takeWhile isDigit
      let after := body.dropWhile isDigit
      if ds = [] then ({ rest := after, good := false }, some 0)
      else
        let v : Int := if negative then -(digitsValue ds : Int) else (digitsValue ds : Int)
        if v > 2147483647 then ({ rest := after, good := false }, some 2147483647)
        else if v < -2147483648 then ({ rest := after, good := false }, some (-2147483648))
        else ({ rest := after, good := decide (after ≠ []) }, some v)
  else ({ rest := s.rest, good := false }, old)

/-- The call `ignore()`: one character is dropped, if the stream is good. -/
def ignoreOne (s : IStream) : IStream :=
  if s.good then
    match s.rest with
    | [] => { rest := [], good := false }
    | _ :: rest => { rest := rest, good := true }
  else s

/-- The assignment `freqTable[c] = freq`. -/
def FreqTable.assign (c : CChar) (v : Int) : FreqTable → FreqTable
  | [] => [(c, v)]
  | (k, w) :: rest => if k = c then (k, v) :: rest else (k, w) :: FreqTable.assign c v rest

/-- The reading loop of `decompressFile`, `n` iterations: `inputFile >> c >> freq`,
`ignore()`, `freqTable[c] = freq`; `none` when `c` or `freq` is used uninitialised. -/
def readEntries : Nat → IStream → Option CChar → Option Int → FreqTable →
    Option (IStream × FreqTable)
  | 0, s, _, _, freqTable => some (s, freqTable)
  | n + 1, s, c, freq, freqTable =>
    let r1 := readChar s c
    let r2 := readInt r1.1 freq
    match r1.2, r2.2 with
    | some cv, some fv =>
      readEntries n (ignoreOne r2.1) (some cv) (some fv) (FreqTable.assign cv fv freqTable)
    | _, _ => none

/-- The reads of `decompressFile`: the table size, `ignore()`, the entries, and the
rest of the file as encoded text; `none` when a variable is used uninitialised. -/
def readContainer (file : CString) : Option (FreqTable × CString) :=
  let r := readInt { rest := file, good := true } none
  match r.2 with
  | none => none
  | some tableSize =>
    match readEntries tableSize.toNat (ignoreOne r.1) none none [] with
    | none => none
    | some (s, freqTable) => some (freqTable, s.rest)

/-! ## Depth profiles, for the comparison with other trees -/

/-- The leaves of a tree, left to right, as `(frequency, depth)`, the root being at
depth `depth`. -/
def leafDepths : HuffmanNode → Nat → List (Int × Nat)
  | .null, _ => []
  | .node _ f l r, depth =>
    if l = .null ∧ r = .null then [(f, depth)]
    else leafDepths l (depth + 1) ++ leafDepths r (depth + 1)

/-- The depths of the leaves of the strictly binary trees: a single leaf at depth 0,
or the depths of two such trees, each one level down. -/
inductive Shape : Multiset Nat → Prop
  | single : Shape {0}
  | join (s t : Multiset Nat) : Shape s → Shape t →
      Shape (s.map Nat.succ + t.map Nat.succ)

/-- The cost of an assignment of depths to weights: the sum of weight times depth. -/
def depthCost (m : Multiset (Int × Nat)) : Int :=
  (m.map (fun e => e.1 * (e.2 : Int))).sum

/-! ## The priority queue -/

theorem getD_eq_getElem (pq : PQ) (i : Nat) (h : i < pq.length) :
    pq.getD i .null = pq[i] := by
  simp [List.getD, List.getElem?_eq_getElem h]

theorem exists_least (pq : PQ) (hne : pq ≠ []) :
    ∃ i, ∃ h : i < pq.length, ∀ y ∈ pq, (pq[i]).frequency ≤ y.frequency := by
  induction pq with
  | nil => exact absurd rfl hne
  | cons x rest ih =>
    by_cases hrest : rest = []
    · subst hrest
      exact ⟨0, by simp, by simp⟩
    · obtain ⟨i, hi, hmin⟩ := ih hrest
      by_cases hx : x.frequency ≤ (rest[i]).frequency
      · refine ⟨0, by simp, ?_⟩
        intro y hy
        rcases List.mem_cons.mp hy with rfl | hy
        · simp
        · simpa using le_trans hx (hmin y hy)
      · refine ⟨i + 1, by simpa using hi, ?_⟩
        intro y hy
        rcases List.mem_cons.mp hy with rfl | hy
        · simpa using le_of_lt (not_le.mp hx)
        · simpa using hmin y hy

theorem mem_topCandidates (pq : PQ) (i : Nat) :
    i ∈ topCandidates pq ↔
      ∃ h : i < pq.length, ∀ y ∈ pq, (pq[i]).frequency ≤ y.frequency := by
  unfold topCandidates
  rw [List.mem_filter, List.mem_range]
  constructor
  · rintro ⟨hi, hall⟩
    refine ⟨hi, ?_⟩
    intro y hy
    have := List.all_eq_true.mp hall y hy
    rw [getD_eq_getElem pq i hi] at this
    simpa [Compare] using this
  · rintro ⟨hi, hmin⟩
    refine ⟨hi, ?_⟩
    apply List.all_eq_true.mpr
    intro y hy
    rw [getD_eq_getElem pq i hi]
    simpa [Compare] using hmin y hy

theorem pqTopIdx_mem (tie : PQ → Nat) (pq : PQ) (hne : pq ≠ []) :
    pqTopIdx tie pq ∈ topCandidates pq := by
  obtain ⟨i, hi, hmin⟩ := exists_least pq hne
  have hmem : i ∈ topCandidates pq := (mem_topCandidates pq i).mpr ⟨hi, hmin⟩
  have hpos : 0 < (topCandidates pq).length := List.length_pos_of_mem hmem
  have hlt : tie pq % (topCandidates pq).length < (topCandidates pq).length :=
    Nat.mod_lt _ hpos
  unfold pqTopIdx
  rw [List.getD_eq_getElem _ _ hlt]
  exact List.getElem_mem hlt

theorem perm_cons_eraseIdx {α : Type} (l : List α) (i : Nat) (h : i < l.length) :
    l.Perm (l[i] :: l.eraseIdx i) := by
  induction l generalizing i with
  | nil => simp at h
  | cons x rest ih =>
    cases i with
    | zero => simp
    | succ j =>
      have hj : j < rest.length := by simpa using h
      simp only [List.getElem_cons_succ, List.eraseIdx_cons_succ]
      exact ((ih j hj).cons x).trans (List.Perm.swap _ _ _)

/-- What `top()` and `pop()` do on a non-empty queue: `top()` returns an element of
least frequency, and `pop()` leaves the other elements. -/
theorem pqTop_spec (tie : PQ → Nat) (pq : PQ) (hne : pq ≠ []) :
    ∃ x, pqTop tie pq = some x ∧ pq.Perm (x :: pqPop tie pq) ∧
      ∀ y ∈ pq, x.frequency ≤ y.frequency := by
  obtain ⟨hi, hmin⟩ := (mem_topCandidates pq _).mp (pqTopIdx_mem tie pq hne)
  refine ⟨pq[pqTopIdx tie pq], ?_, ?_, hmin⟩
  · simp [pqTop, List.getElem?_eq_getElem hi]
  · exact perm_cons_eraseIdx pq _ hi

theorem pqTop_nil (tie : PQ → Nat) : pqTop tie [] = none := by
  simp [pqTop]

theorem pqTop_singleton (tie : PQ → Nat) (x : HuffmanNode) : pqTop tie [x] = some x := by
  obtain ⟨y, hy, hperm, -⟩ := pqTop_spec tie [x] (by simp)
  have hmem : y ∈ [x] := hperm.symm.subset (List.mem_cons_self _ _)
  rw [hy, List.mem_singleton.mp hmem]

theorem pushLeaves_eq (freqTable : FreqTable) :
    pushLeaves freqTable = freqTable.map (fun pair => HuffmanNode.new pair.1 pair.2) := by
  have key : ∀ (ft : FreqTable) (acc : PQ),
      ft.foldl (fun pq pair => pqPush pq (HuffmanNode.new pair.1 pair.2)) acc
        = acc ++ ft.map (fun pair => HuffmanNode.new pair.1 pair.2) := by
    intro ft
    induction ft with
    | nil => intro acc; simp
    | cons e rest ih =>
      intro acc
      rw [List.foldl_cons, ih]
      simp [pqPush]
  simpa [pushLeaves] using key freqTable []

/-! ## The tree builder -/

theorem WellFormed.ne_null {t : HuffmanNode} (h : WellFormed t) : t ≠ .null := by
  cases h <;> simp

theorem leaves_leaf (d : CChar) (f : Int) : leaves (.node d f .null .null) = [(d, f)] := by
  simp [leaves]

theorem leaves_inner (d : CChar) (f : Int) (l r : HuffmanNode) (hl : l ≠ .null) :
    leaves (.node d f l r) = leaves l ++ leaves r := by
  simp [leaves, hl]

theorem leafCodes_leaf (d : CChar) (f : Int) :
    leafCodes (.node d f .null .null) = [(d, [])] := by
  simp [leafCodes]

theorem leafCodes_inner (d : CChar) (f : Int) (l r : HuffmanNode) (hl : l ≠ .null) :
    leafCodes (.node d f l r) =
      (leafCodes l).map (fun e => (e.1, c0 :: e.2)) ++
      (leafCodes r).map (fun e => (e.1, c1 :: e.2)) := by
  simp [leafCodes, hl]

theorem singleton_of_length_le_one (pq : PQ) (hne : pq ≠ []) (h : ¬ 1 < pq.length) :
    ∃ r, pq = [r] := by
  match pq, hne, h with
  | [r], _, _ => exact ⟨r, rfl⟩
  | _ :: _ :: _, _, h => exact absurd (by simp) h

/-- The merge loop, run on a non-empty queue of well-formed nodes with fuel for its
size, ends with a single well-formed node whose leaves are those of the queue. -/
theorem mergeLoop_spec (tie : PQ → Nat) (fuel : Nat) :
    ∀ pq : PQ, pq ≠ [] → pq.length ≤ fuel + 1 → (∀ t ∈ pq, WellFormed t) →
      ∃ r, mergeLoop tie fuel pq = some [r] ∧ WellFormed r ∧
        (leaves r).Perm (pq.flatMap leaves) := by
  induction fuel with
  | zero =>
    intro pq hne hlen hwf
    obtain ⟨r, rfl⟩ := singleton_of_length_le_one pq hne (by omega)
    exact ⟨r, by simp [mergeLoop], hwf r (by simp), by simp⟩
  | succ n ih =>
    intro pq hne hlen hwf
    by_cases hgt : 1 < pq.length
    · obtain ⟨x, hx, hperm1, -⟩ := pqTop_spec tie pq hne
      have hlen1 : (pqPop tie pq).length + 1 = pq.length := by
        simpa using hperm1.length_eq.symm
      have hne1 : pqPop tie pq ≠ [] := by
        intro h
        rw [h] at hlen1
        simp at hlen1
        omega
      obtain ⟨y, hy, hperm2, -⟩ := pqTop_spec tie (pqPop tie pq) hne1
      have hlen2 : (pqPop tie (pqPop tie pq)).length + 1 = (pqPop tie pq).length := by
        simpa using hperm2.length_eq.symm
      have hperm : pq.Perm (x :: y :: pqPop tie (pqPop tie pq)) :=
        hperm1.trans (hperm2.cons x)
      have hxwf : WellFormed x := hwf x (hperm.symm.subset (by simp))
      have hywf : WellFormed y := hwf y (hperm.symm.subset (by simp))
      have hrest : ∀ t ∈ pqPop tie (pqPop tie pq), WellFormed t := fun t ht =>
        hwf t (hperm.symm.subset (by simp [ht]))
      obtain ⟨r, hr, hrwf, hrl⟩ := ih
        (pqPush (pqPop tie (pqPop tie pq))
          (.node NUL (wrap32 (x.frequency + y.frequency)) x y))
        (by simp [pqPush]) (by simp [pqPush]; omega)
        (by
          intro t ht
          rcases List.mem_append.mp ht with ht | ht
          · exact hrest t ht
          · rw [List.mem_singleton.mp ht]; exact WellFormed.inner x y hxwf hywf)
      refine ⟨r, ?_, hrwf, ?_⟩
      · simp only [mergeLoop, hgt, if_true, hx, hy]
        exact hr
      · refine hrl.trans ?_
        refine List.Perm.trans ?_ (hperm.flatMap_right leaves).symm
        simp only [pqPush, List.flatMap_append, List.flatMap_cons, List.flatMap_nil,
          List.append_nil, leaves_inner NUL _ x y hxwf.ne_null]
        rw [← List.append_assoc (leaves x)]
        exact List.perm_append_comm
    · obtain ⟨r, rfl⟩ := singleton_of_length_le_one pq hne hgt
      exact ⟨r, by simp [mergeLoop], hwf r (by simp), by simp⟩

/-- On a non-empty table `buildHuffmanTree` returns a well-formed tree whose leaves
are the table's entries: each pair once, with its count. -/
theorem buildHuffmanTree_spec (tie : PQ → Nat) (freqTable : FreqTable)
    (hne : freqTable ≠ []) :
    ∃ t, buildHuffmanTree tie freqTable = some t ∧ WellFormed t ∧
      (leaves t).Perm freqTable := by
  have hq : pushLeaves freqTable ≠ [] := by
    rw [pushLeaves_eq]
    simpa using hne
  obtain ⟨r, hr, hwf, hl⟩ := mergeLoop_spec tie (pushLeaves freqTable).length
    (pushLeaves freqTable) hq (by omega)
    (by
      rw [pushLeaves_eq]
      intro t ht
      obtain ⟨e, -, rfl⟩ := List.mem_map.mp ht
      exact WellFormed.leaf e.1 e.2)
  refine ⟨r, ?_, hwf, ?_⟩
  · simp only [buildHuffmanTree, hr]
    exact pqTop_singleton tie r
  · refine hl.trans ?_
    rw [pushLeaves_eq]
    have key : ∀ ft : FreqTable,
        (ft.map (fun pair => HuffmanNode.new pair.1 pair.2)).flatMap leaves = ft := by
      intro ft
      induction ft with
      | nil => rfl
      | cons e rest ih =>
        rw [List.map_cons, List.flatMap_cons, ih]
        simp [HuffmanNode.new, leaves_leaf]
    rw [key]

/-! ## The frequency table -/

theorem wrap32_of_range (v : Int) (h1 : -2147483648 ≤ v) (h2 : v < 2147483648) :
    wrap32 v = v := by
  unfold wrap32
  omega

theorem wrap32_succ (v : Int) : wrap32 (wrap32 v + 1) = wrap32 (v + 1) := by
  unfold wrap32
  omega

theorem find_incr (c k : CChar) (tbl : FreqTable) :
    FreqTable.find k (FreqTable.incr c tbl) =
      if k = c then some (wrap32 ((FreqTable.find c tbl).getD 0 + 1))
      else FreqTable.find k tbl := by
  induction tbl with
  | nil =>
    by_cases h : k = c
    · simp [FreqTable.incr, FreqTable.find, h]
    · simp [FreqTable.incr, FreqTable.find, h, Ne.symm h]
  | cons e rest ih =>
    obtain ⟨a, v⟩ := e
    by_cases hac : a = c
    · by_cases hk : k = c
      · simp [FreqTable.incr, FreqTable.find, hac, hk]
      · simp [FreqTable.incr, FreqTable.find, hac, hk, Ne.symm hk]
    · by_cases hk : k = c
      · subst hk
        simp [FreqTable.incr, FreqTable.find, hac, ih]
      · by_cases hak : a = k
        · simp [FreqTable.incr, FreqTable.find, hac, hk, hak]
        · simp [FreqTable.incr, FreqTable.find, hac, hk, hak, ih]

theorem keys_incr (c : CChar) (tbl : FreqTable) :
    (FreqTable.incr c tbl).map Prod.fst =
      if c ∈ tbl.map Prod.fst then tbl.map Prod.fst else tbl.map Prod.fst ++ [c] := by
  induction tbl with
  | nil => simp [FreqTable.incr]
  | cons e rest ih =>
    obtain ⟨a, v⟩ := e
    by_cases hac : a = c
    · simp [FreqTable.incr, hac]
    · by_cases hmem : c ∈ rest.map Prod.fst
      · simp only [FreqTable.incr, hac, if_false, List.map_cons, ih, hmem, if_true,
          List.mem_cons, or_true]
      · simp only [FreqTable.incr, hac, if_false, List.map_cons, ih, hmem,
          List.mem_cons, Ne.symm hac, or_self, List.cons_append]

theorem sum_incr (c : CChar) (tbl : FreqTable) :
    ((FreqTable.incr c tbl).map Prod.snd).sum =
      (tbl.map Prod.snd).sum +
        (wrap32 ((FreqTable.find c tbl).getD 0 + 1) - (FreqTable.find c tbl).getD 0) := by
  induction tbl with
  | nil => simp [FreqTable.incr, FreqTable.find]
  | cons e rest ih =>
    obtain ⟨a, v⟩ := e
    by_cases hac : a = c
    · simp only [FreqTable.incr, FreqTable.find, hac, if_true, List.map_cons, List.sum_cons,
        Option.getD_some]
      ring
    · simp only [FreqTable.incr, FreqTable.find, hac, if_false, List.map_cons, List.sum_cons,
        ih]
      ring

theorem find_eq_none_iff (c : CChar) (tbl : FreqTable) :
    FreqTable.find c tbl = none ↔ c ∉ tbl.map Prod.fst := by
  induction tbl with
  | nil => simp [FreqTable.find]
  | cons e rest ih =>
    obtain ⟨a, v⟩ := e
    by_cases hac : a = c
    · simp [FreqTable.find, hac]
    · simp [FreqTable.find, hac, ih, Ne.symm hac]

theorem find_of_mem (tbl : FreqTable) (hnd : (tbl.map Prod.fst).Nodup)
    (e : CChar × Int) (he : e ∈ tbl) : FreqTable.find e.1 tbl = some e.2 := by
  induction tbl with
  | nil => simp at he
  | cons a rest ih =>
    obtain ⟨k, v⟩ := a
    rw [List.map_cons, List.nodup_cons] at hnd
    rcases List.mem_cons.mp he with rfl | he
    · simp [FreqTable.find]
    · have hne : k ≠ e.1 := by
        intro h
        apply hnd.1
        rw [h]
        exact List.mem_map.mpr ⟨e, he, rfl⟩
      simp [FreqTable.find, hne, ih hnd.2 he]

theorem buildFrequencyTable_snoc (x : CString) (c : CChar) :
    buildFrequencyTable (x ++ [c]) = FreqTable.incr c (buildFrequencyTable x) := by
  simp [buildFrequencyTable, List.foldl_append]

/-- The table maps every symbol of the text to the `int` reached by counting its
occurrences, and has no entry for other symbols. -/
theorem buildFrequencyTable_find (x : CString) (c : CChar) :
    FreqTable.find c (buildFrequencyTable x) =
      if c ∈ x then some (wrap32 (x.count c : Int)) else none := by
  induction x using List.reverseRecOn with
  | nil => rfl
  | append_singleton xs a ih =>
    rw [buildFrequencyTable_snoc, find_incr]
    by_cases hca : c = a
    · subst hca
      have hc : ((xs ++ [c]).count c : Int) = (xs.count c : Int) + 1 := by
        simp [List.count_append]
      rw [if_pos rfl, if_pos (List.mem_append_right xs (List.mem_singleton_self c)), ih, hc]
      by_cases hmem : c ∈ xs
      · rw [if_pos hmem, Option.getD_some, wrap32_succ]
      · rw [if_neg hmem, Option.getD_none, List.count_eq_zero_of_not_mem hmem]
        rfl
    · rw [if_neg hca, ih]
      have hc : (xs ++ [a]).count c = xs.count c := by
        have h0 : List.count c [a] = 0 :=
          List.count_eq_zero_of_not_mem (by simpa using hca)
        rw [List.count_append, h0, Nat.add_zero]
      rw [hc]
      by_cases hmem : c ∈ xs
      · rw [if_pos hmem, if_pos (List.mem_append_left _ hmem)]
      · rw [if_neg hmem, if_neg]
        intro h
        rcases List.mem_append.mp h with h | h
        · exact hmem h
        · exact hca (List.mem_singleton.mp h)

/-- Below `2^31` characters no count overflows. -/
theorem buildFrequencyTable_find_of_lt (x : CString) (hlen : x.length < 2147483648)
    (c : CChar) :
    FreqTable.find c (buildFrequencyTable x) =
      if c ∈ x then some (x.count c : Int) else none := by
  rw [buildFrequencyTable_find]
  have hle : x.count c ≤ x.length := List.count_le_length c x
  have h1 : (-2147483648 : Int) ≤ (x.count c : Int) := by omega
  have h2 : (x.count c : Int) < 2147483648 := by omega
  rw [wrap32_of_range _ h1 h2]

theorem buildFrequencyTable_keys_nodup (x : CString) :
    ((buildFrequencyTable x).map Prod.fst).Nodup := by
  induction x using List.reverseRecOn with
  | nil => simp [buildFrequencyTable]
  | append_singleton xs a ih =>
    rw [buildFrequencyTable_snoc, keys_incr]
    by_cases hmem : a ∈ (buildFrequencyTable xs).map Prod.fst
    · simpa [hmem] using ih
    · rw [if_neg hmem]
      exact List.Nodup.append ih (List.nodup_singleton a) (by simpa using hmem)

theorem buildFrequencyTable_mem_keys (x : CString) (c : CChar) :
    c ∈ (buildFrequencyTable x).map Prod.fst ↔ c ∈ x := by
  have h1 := find_eq_none_iff c (buildFrequencyTable x)
  rw [buildFrequencyTable_find] at h1
  by_cases hmem : c ∈ x
  · simp only [hmem, if_true] at h1
    simpa [hmem] using h1
  · simp only [hmem, if_false, true_iff] at h1
    simpa [hmem] using h1

theorem buildFrequencyTable_sum (x : CString) :
    x.length < 2147483648 →
      ((buildFrequencyTable x).map Prod.snd).sum = (x.length : Int) := by
  induction x using List.reverseRecOn with
  | nil => intro _; simp [buildFrequencyTable]
  | append_singleton xs a ih =>
    intro hlen
    rw [List.length_append, List.length_singleton] at hlen
    have hxs : xs.length < 2147483648 := by omega
    have hle : xs.count a ≤ xs.length := List.count_le_length a xs
    rw [buildFrequencyTable_snoc, sum_incr, ih hxs, buildFrequencyTable_find_of_lt xs hxs]
    by_cases hmem : a ∈ xs
    · have h1 : (-2147483648 : Int) ≤ (xs.count a : Int) + 1 := by omega
      have h2 : (xs.count a : Int) + 1 < 2147483648 := by omega
      rw [if_pos hmem, Option.getD_some, wrap32_of_range _ h1 h2, List.length_append,
        List.length_singleton]
      push_cast
      ring
    · rw [if_neg hmem, Option.getD_none, wrap32_of_range _ (by decide) (by decide),
        List.length_append, List.length_singleton]
      push_cast
      ring

/-! ## The code table -/

theorem leafCodes_keys (t : HuffmanNode) :
    (leafCodes t).map Prod.fst = (leaves t).map Prod.fst := by
  induction t with
  | null => rfl
  | node d f l r ihl ihr =>
    by_cases h : l = .null ∧ r = .null
    · simp [leafCodes, leaves, h]
    · simp only [leafCodes, leaves, h, if_false, List.map_append, List.map_map, ← ihl, ← ihr]
      rfl

theorem mem_leafCodes_inner {d : CChar} {f : Int} {l r : HuffmanNode} (hl : l ≠ .null)
    {c : CChar} {p : CString} (h : (c, p) ∈ leafCodes (.node d f l r)) :
    (∃ q, p = c0 :: q ∧ (c, q) ∈ leafCodes l) ∨ (∃ q, p = c1 :: q ∧ (c, q) ∈ leafCodes r) := by
  rw [leafCodes_inner d f l r hl, List.mem_append] at h
  rcases h with h | h
  · obtain ⟨e, he, heq⟩ := List.mem_map.mp h
    left
    refine ⟨e.2, ?_, ?_⟩
    · exact (congrArg Prod.snd heq).symm
    · have : e.1 = c := congrArg Prod.fst heq
      rw [← this]
      exact he
  · obtain ⟨e, he, heq⟩ := List.mem_map.mp h
    right
    refine ⟨e.2, ?_, ?_⟩
    · exact (congrArg Prod.snd heq).symm
    · have : e.1 = c := congrArg Prod.fst heq
      rw [← this]
      exact he

theorem mem_leafCodes_left {d : CChar} {f : Int} {l r : HuffmanNode} (hl : l ≠ .null)
    {c : CChar} {q : CString} (h : (c, q) ∈ leafCodes l) :
    (c, c0 :: q) ∈ leafCodes (.node d f l r) := by
  rw [leafCodes_inner d f l r hl, List.mem_append]
  exact Or.inl (List.mem_map.mpr ⟨(c, q), h, rfl⟩)

theorem mem_leafCodes_right {d : CChar} {f : Int} {l r : HuffmanNode} (hl : l ≠ .null)
    {c : CChar} {q : CString} (h : (c, q) ∈ leafCodes r) :
    (c, c1 :: q) ∈ leafCodes (.node d f l r) := by
  rw [leafCodes_inner d f l r hl, List.mem_append]
  exact Or.inr (List.mem_map.mpr ⟨(c, q), h, rfl⟩)

/-- Filling the table from a well-formed tree leaves the entry of `NUL`, and of every
symbol that is on no leaf, as it was. -/
theorem buildHuffmanCodeTable_other {t : HuffmanNode} (hwf : WellFormed t) :
    ∀ (tbl : CodeTable) (code : CString) (c : CChar),
      (c = NUL ∨ c ∉ (leafCodes t).map Prod.fst) →
      buildHuffmanCodeTable t tbl code c = tbl c := by
  induction hwf with
  | leaf d f =>
    intro tbl code c hc
    simp only [buildHuffmanCodeTable]
    by_cases hd : d = NUL
    · simp [hd]
    · have hcd : c ≠ d := by
        rcases hc with hc | hc
        · rw [hc]; exact Ne.symm hd
        · simpa [leafCodes_leaf] using hc
      simp [hd, CodeTable.set, hcd]
  | inner l r hl hr ihl ihr =>
    intro tbl code c hc
    have hcl : c = NUL ∨ c ∉ (leafCodes l).map Prod.fst := by
      rcases hc with hc | hc
      · exact Or.inl hc
      · right
        intro hmem
        apply hc
        obtain ⟨e, he, rfl⟩ := List.mem_map.mp hmem
        exact List.mem_map.mpr ⟨_, mem_leafCodes_left hl.ne_null he, rfl⟩
    have hcr : c = NUL ∨ c ∉ (leafCodes r).map Prod.fst := by
      rcases hc with hc | hc
      · exact Or.inl hc
      · right
        intro hmem
        apply hc
        obtain ⟨e, he, rfl⟩ := List.mem_map.mp hmem
        exact List.mem_map.mpr ⟨_, mem_leafCodes_right hl.ne_null he, rfl⟩
    simp only [buildHuffmanCodeTable, ne_eq, not_true_eq_false, if_false]
    rw [ihr _ _ c hcr, ihl _ _ c hcl]

/-- Every entry the traversal of a well-formed tree writes is the code so far
followed by the path to a leaf holding that symbol, and the symbol is not `NUL`. -/
theorem buildHuffmanCodeTable_sound {t : HuffmanNode} (hwf : WellFormed t) :
    ∀ (tbl : CodeTable) (code : CString) (c : CChar) (q : CString),
      buildHuffmanCodeTable t tbl code c = some q →
      tbl c = some q ∨ (c ≠ NUL ∧ ∃ p, (c, p) ∈ leafCodes t ∧ q = code ++ p) := by
  induction hwf with
  | leaf d f =>
    intro tbl code c q h
    simp only [buildHuffmanCodeTable] at h
    by_cases hd : d = NUL
    · left; simpa [hd] using h
    · by_cases hcd : c = d
      · right
        subst hcd
        have : code = q := by simpa [hd, CodeTable.set] using h
        exact ⟨hd, [], by simp [leafCodes_leaf], by simp [this]⟩
      · left; simpa [hd, CodeTable.set, hcd] using h
  | inner l r hl hr ihl ihr =>
    intro tbl code c q h
    simp only [buildHuffmanCodeTable, ne_eq, not_true_eq_false, if_false] at h
    rcases ihr _ _ c q h with h2 | ⟨hc, p, hp, hq⟩
    · rcases ihl _ _ c q h2 with h1 | ⟨hc, p, hp, hq⟩
      · exact Or.inl h1
      · right
        exact ⟨hc, c0 :: p, mem_leafCodes_left hl.ne_null hp, by simp [hq]⟩
    · right
      exact ⟨hc, c1 :: p, mem_leafCodes_right hl.ne_null hp, by simp [hq]⟩

/-- With distinct leaf symbols, the traversal of a well-formed tree gives every leaf
symbol other than `NUL` the code so far followed by the path to its leaf. -/
theorem buildHuffmanCodeTable_leaf {t : HuffmanNode} (hwf : WellFormed t) :
    ∀ (tbl : CodeTable) (code : CString) (c : CChar) (p : CString),
      ((leafCodes t).map Prod.fst).Nodup → (c, p) ∈ leafCodes t → c ≠ NUL →
      buildHuffmanCodeTable t tbl code c = some (code ++ p) := by
  induction hwf with
  | leaf d f =>
    intro tbl code c p _ hmem hc
    have hcp : c = d ∧ p = [] := by simpa [leafCodes_leaf] using hmem
    obtain ⟨rfl, rfl⟩ := hcp
    simp [buildHuffmanCodeTable, hc, CodeTable.set]
  | inner l r hl hr ihl ihr =>
    intro tbl code c p hnd hmem hc
    rw [leafCodes_inner _ _ l r hl.ne_null, List.map_append, List.map_map, List.map_map]
      at hnd
    have hndl : ((leafCodes l).map Prod.fst).Nodup := (List.nodup_append.mp hnd).1
    have hndr : ((leafCodes r).map Prod.fst).Nodup := (List.nodup_append.mp hnd).2.1
    have hdisj := (List.nodup_append.mp hnd).2.2
    simp only [buildHuffmanCodeTable, ne_eq, not_true_eq_false, if_false]
    rcases mem_leafCodes_inner hl.ne_null hmem with ⟨q, rfl, hq⟩ | ⟨q, rfl, hq⟩
    · have hnotr : c ∉ (leafCodes r).map Prod.fst := by
        intro hcr
        exact hdisj (List.mem_map.mpr ⟨(c, q), hq, rfl⟩) hcr
      rw [buildHuffmanCodeTable_other hr _ _ c (Or.inr hnotr), ihl _ _ c q hndl hq hc]
      simp
    · rw [ihr _ _ c q hndr hq hc]
      simp

/-- In a well-formed tree a path that is a prefix of another leaf's path is that
same leaf's path. -/
theorem leafCodes_prefix_eq {t : HuffmanNode} (hwf : WellFormed t) :
    ∀ (a b : CChar) (p q : CString), (a, p) ∈ leafCodes t → (b, q) ∈ leafCodes t →
      p <+: q → a = b ∧ p = q := by
  induction hwf with
  | leaf d f =>
    intro a b p q ha hb _
    have h1 : a = d ∧ p = [] := by simpa [leafCodes_leaf] using ha
    have h2 : b = d ∧ q = [] := by simpa [leafCodes_leaf] using hb
    exact ⟨h1.1.trans h2.1.symm, h1.2.trans h2.2.symm⟩
  | inner l r hl hr ihl ihr =>
    intro a b p q ha hb hpre
    rcases mem_leafCodes_inner hl.ne_null ha with ⟨p1, rfl, hp1⟩ | ⟨p1, rfl, hp1⟩ <;>
    rcases mem_leafCodes_inner hl.ne_null hb with ⟨q1, rfl, hq1⟩ | ⟨q1, rfl, hq1⟩
    · obtain ⟨-, h⟩ := List.cons_prefix_cons.mp hpre
      obtain ⟨hab, hpq⟩ := ihl a b p1 q1 hp1 hq1 h
      exact ⟨hab, by rw [hpq]⟩
    · exact absurd (List.cons_prefix_cons.mp hpre).1 (by decide)
    · exact absurd (List.cons_prefix_cons.mp hpre).1 (by decide)
    · obtain ⟨-, h⟩ := List.cons_prefix_cons.mp hpre
      obtain ⟨hab, hpq⟩ := ihr a b p1 q1 hp1 hq1 h
      exact ⟨hab, by rw [hpq]⟩

/-! ## Encoder and decoder -/

/-- The encoder loop fails exactly on a symbol without entry, and otherwise appends
the codes of the symbols in order. -/
theorem encodeLoop_eq (codeTable : CodeTable) (text : CString) :
    ∀ acc : CString, encodeLoop codeTable text acc =
      if ∀ c ∈ text, (codeTable c).isSome
      then some (acc ++ text.flatMap (fun c => (codeTable c).getD []))
      else none := by
  induction text with
  | nil => intro acc; simp [encodeLoop]
  | cons c rest ih =>
    intro acc
    cases hc : codeTable c with
    | none => simp [encodeLoop, hc]
    | some code =>
      simp only [encodeLoop, hc, ih]
      by_cases hall : ∀ c ∈ rest, (codeTable c).isSome
      · simp [hall, hc]
      · simp [hall, hc]

theorem mem_leafCodes_ne_nil {d : CChar} {f : Int} {l r : HuffmanNode} (hl : l ≠ .null)
    {c : CChar} {p : CString} (h : (c, p) ∈ leafCodes (.node d f l r)) : p ≠ [] := by
  rcases mem_leafCodes_inner hl h with ⟨q, rfl, -⟩ | ⟨q, rfl, -⟩ <;> simp

theorem decodeLoop_step_leaf (root : HuffmanNode) (bit : CChar) (rest acc : CString)
    (d0 : CChar) (f0 : Int) (l r : HuffmanNode) (d : CChar) (f : Int)
    (h : (if bit = c0 then l else r) = .node d f .null .null) :
    decodeLoop root (bit :: rest) (.node d0 f0 l r) acc =
      decodeLoop root rest root (acc ++ [d]) := by
  simp [decodeLoop, h]

theorem decodeLoop_step_inner (root : HuffmanNode) (bit : CChar) (rest acc : CString)
    (d0 : CChar) (f0 : Int) (l r : HuffmanNode) (d : CChar) (f : Int) (a b : HuffmanNode)
    (h : (if bit = c0 then l else r) = .node d f a b) (ha : a ≠ .null) :
    decodeLoop root (bit :: rest) (.node d0 f0 l r) acc =
      decodeLoop root rest (.node d f a b) acc := by
  simp [decodeLoop, h, ha]

/-- From a node with children, reading the path to one of its leaves emits that
leaf's symbol and puts the decoder back at the root. -/
theorem decodeLoop_path (root : HuffmanNode) {t : HuffmanNode} (hwf : WellFormed t) :
    ∀ (c : CChar) (p rest acc : CString), (c, p) ∈ leafCodes t → p ≠ [] →
      decodeLoop root (p ++ rest) t acc = decodeLoop root rest root (acc ++ [c]) := by
  induction hwf with
  | leaf d f =>
    intro c p rest acc hmem hp
    have : c = d ∧ p = [] := by simpa [leafCodes_leaf] using hmem
    exact absurd this.2 hp
  | inner l r hl hr ihl ihr =>
    intro c p rest acc hmem _
    rcases mem_leafCodes_inner hl.ne_null hmem with ⟨q, rfl, hq⟩ | ⟨q, rfl, hq⟩
    · cases hl with
      | leaf d f =>
        have hcq : c = d ∧ q = [] := by simpa [leafCodes_leaf] using hq
        obtain ⟨rfl, rfl⟩ := hcq
        exact decodeLoop_step_leaf root c0 rest acc _ _ _ _ c f (if_pos rfl)
      | inner a b ha hb =>
        rw [List.cons_append,
          decodeLoop_step_inner root c0 (q ++ rest) acc _ _ _ _ NUL _ a b (if_pos rfl) ha.ne_null]
        exact ihl c q rest acc hq (mem_leafCodes_ne_nil ha.ne_null hq)
    · cases hr with
      | leaf d f =>
        have hcq : c = d ∧ q = [] := by simpa [leafCodes_leaf] using hq
        obtain ⟨rfl, rfl⟩ := hcq
        exact decodeLoop_step_leaf root c1 rest acc _ _ _ _ c f (if_neg (by decide))
      | inner a b ha hb =>
        rw [List.cons_append,
          decodeLoop_step_inner root c1 (q ++ rest) acc _ _ _ _ NUL _ a b
            (if_neg (by decide)) ha.ne_null]
        exact ihr c q rest acc hq (mem_leafCodes_ne_nil ha.ne_null hq)

/-- Decoding, from the root of a tree with children, the codes of a text whose symbols
all have their leaf path as code emits the text and goes on with what follows. -/
theorem decodeLoop_codes (l r : HuffmanNode) (hl : WellFormed l) (hr : WellFormed r)
    (codeTable : CodeTable) (text : CString)
    (hcodes : ∀ c ∈ text, ∃ p, codeTable c = some p ∧
      (c, p) ∈ leafCodes (.node NUL (wrap32 (l.frequency + r.frequency)) l r)) :
    ∀ acc more : CString,
      decodeLoop (.node NUL (wrap32 (l.frequency + r.frequency)) l r)
        (text.flatMap (fun c => (codeTable c).getD []) ++ more)
        (.node NUL (wrap32 (l.frequency + r.frequency)) l r) acc =
      decodeLoop (.node NUL (wrap32 (l.frequency + r.frequency)) l r) more
        (.node NUL (wrap32 (l.frequency + r.frequency)) l r) (acc ++ text) := by
  induction text with
  | nil => intro acc more; simp
  | cons c rest ih =>
    intro acc more
    obtain ⟨p, hp, hmem⟩ := hcodes c (List.mem_cons_self _ _)
    rw [List.flatMap_cons, hp, Option.getD_some, List.append_assoc,
      decodeLoop_path _ (WellFormed.inner l r hl hr) c p _ acc hmem
        (mem_leafCodes_ne_nil hl.ne_null hmem),
      ih (fun c hc => hcodes c (List.mem_cons_of_mem _ hc))]
    simp

/-- Reading a proper prefix of a leaf's path emits nothing and does not fail. -/
theorem decodeLoop_partial (root : HuffmanNode) {t : HuffmanNode} (hwf : WellFormed t) :
    ∀ (c : CChar) (p q acc : CString), (c, p ++ q) ∈ leafCodes t → q ≠ [] →
      decodeLoop root p t acc = some acc := by
  induction hwf with
  | leaf d f =>
    intro c p q acc hmem hq
    have h : c = d ∧ p ++ q = [] := by simpa [leafCodes_leaf] using hmem
    exact absurd (List.append_eq_nil.mp h.2).2 hq
  | inner l r hl hr ihl ihr =>
    intro c p q acc hmem hq
    cases p with
    | nil => simp [decodeLoop]
    | cons b p1 =>
      rcases mem_leafCodes_inner hl.ne_null hmem with ⟨s, hs, hmem1⟩ | ⟨s, hs, hmem1⟩
      · obtain ⟨rfl, rfl⟩ := List.cons.inj hs
        cases hl with
        | leaf d f =>
          have h : c = d ∧ p1 ++ q = [] := by simpa [leafCodes_leaf] using hmem1
          exact absurd (List.append_eq_nil.mp h.2).2 hq
        | inner a b ha hb =>
          rw [decodeLoop_step_inner root c0 p1 acc _ _ _ _ NUL _ a b (if_pos rfl) ha.ne_null]
          exact ihl c p1 q acc hmem1 hq
      · obtain ⟨rfl, rfl⟩ := List.cons.inj hs
        cases hr with
        | leaf d f =>
          have h : c = d ∧ p1 ++ q = [] := by simpa [leafCodes_leaf] using hmem1
          exact absurd (List.append_eq_nil.mp h.2).2 hq
        | inner a b ha hb =>
          rw [decodeLoop_step_inner root c1 p1 acc _ _ _ _ NUL _ a b
            (if_neg (by decide)) ha.ne_null]
          exact ihr c p1 q acc hmem1 hq

theorem sum_snd_nonneg (l : List (CChar × Int)) (h : ∀ e ∈ l, 0 ≤ e.2) :
    0 ≤ (l.map Prod.snd).sum := by
  apply List.sum_nonneg
  intro v hv
  obtain ⟨e, he, rfl⟩ := List.mem_map.mp hv
  exact h e he

/-- The frequency field of a well-formed node is the sum of its leaves' frequencies,
when these are not negative and add up to less than `2^31`, so that no sum overflows. -/
theorem WellFormed.frequency_eq {t : HuffmanNode} (hwf : WellFormed t) :
    (∀ e ∈ leaves t, 0 ≤ e.2) → ((leaves t).map Prod.snd).sum < 2147483648 →
      t.frequency = ((leaves t).map Prod.snd).sum := by
  induction hwf with
  | leaf d f => intro _ _; simp [HuffmanNode.frequency, leaves_leaf]
  | inner l r hl hr ihl ihr =>
    intro hnn hsum
    rw [leaves_inner _ _ l r hl.ne_null] at hnn hsum
    rw [List.map_append, List.sum_append] at hsum
    have hnl : ∀ e ∈ leaves l, 0 ≤ e.2 := fun e he => hnn e (List.mem_append_left _ he)
    have hnr : ∀ e ∈ leaves r, 0 ≤ e.2 := fun e he => hnn e (List.mem_append_right _ he)
    have h1 := sum_snd_nonneg _ hnl
    have h2 := sum_snd_nonneg _ hnr
    have e1 := ihl hnl (by omega)
    have e2 := ihr hnr (by omega)
    rw [leaves_inner _ _ l r hl.ne_null, List.map_append, List.sum_append, ← e1, ← e2]
    rw [← e1, ← e2] at hsum
    rw [← e1] at h1
    rw [← e2] at h2
    exact wrap32_of_range _ (by omega) hsum

/-- A well-formed tree with two different leaf symbols is a merge node. -/
theorem WellFormed.inner_of_two {t : HuffmanNode} (hwf : WellFormed t) (a b : CChar)
    (ha : a ∈ (leafCodes t).map Prod.fst) (hb : b ∈ (leafCodes t).map Prod.fst)
    (hab : a ≠ b) :
    ∃ l r, WellFormed l ∧ WellFormed r ∧ t = .node NUL (wrap32 (l.frequency + r.frequency)) l r := by
  cases hwf with
  | leaf d f =>
    have h1 : a = d := by simpa [leafCodes_leaf] using ha
    have h2 : b = d := by simpa [leafCodes_leaf] using hb
    exact absurd (h1.trans h2.symm) hab
  | inner l r hl hr => exact ⟨l, r, hl, hr, rfl⟩

/-- The tree built from any enumeration of a non-empty text's frequency table: it is
well formed, its leaves are the table's entries, and its leaf symbols are distinct and
are the symbols of the text. -/
theorem buildHuffmanTree_of_text (tie : PQ → Nat) (x : CString) (freqTable : FreqTable)
    (hperm : freqTable.Perm (buildFrequencyTable x)) (hne : x ≠ []) :
    ∃ root, buildHuffmanTree tie freqTable = some root ∧ WellFormed root ∧
      (leaves root).Perm freqTable ∧ ((leafCodes root).map Prod.fst).Nodup ∧
      ∀ c, c ∈ (leafCodes root).map Prod.fst ↔ c ∈ x := by
  have hft : freqTable ≠ [] := by
    intro h
    obtain ⟨a, rest, rfl⟩ := List.exists_cons_of_ne_nil hne
    have hmem : a ∈ (buildFrequencyTable (a :: rest)).map Prod.fst :=
      (buildFrequencyTable_mem_keys _ a).mpr (List.mem_cons_self _ _)
    rw [h] at hperm
    rw [← List.Perm.nil_eq hperm] at hmem
    simp at hmem
  obtain ⟨root, hroot, hwf, hleaves⟩ := buildHuffmanTree_spec tie freqTable hft
  have hkeys : ((leafCodes root).map Prod.fst).Perm ((buildFrequencyTable x).map Prod.fst) := by
    rw [leafCodes_keys]
    exact (hleaves.trans hperm).map Prod.fst
  refine ⟨root, hroot, hwf, hleaves, ?_, ?_⟩
  · exact hkeys.nodup_iff.mpr (buildFrequencyTable_keys_nodup x)
  · intro c
    rw [hkeys.mem_iff]
    exact buildFrequencyTable_mem_keys x c

/-- Every entry of the code table of a well-formed tree is a leaf symbol other than
`NUL` with the path to one of its leaves. -/
theorem codeTableOf_sound {root : HuffmanNode} (hwf : WellFormed root) (c : CChar)
    (q : CString) (h : codeTableOf root c = some q) :
    c ≠ NUL ∧ (c, q) ∈ leafCodes root := by
  rcases buildHuffmanCodeTable_sound hwf CodeTable.empty [] c q h with h0 | ⟨hc, p, hp, hq⟩
  · simp [CodeTable.empty] at h0
  · refine ⟨hc, ?_⟩
    rw [hq]
    simpa using hp

/-- A successful `encodeText` returns the concatenated codes, one per symbol. -/
theorem encodeText_some (text : CString) (codeTable : CodeTable) (e : CString)
    (h : encodeText text codeTable = some e) :
    (∀ c ∈ text, (codeTable c).isSome) ∧
      e = text.flatMap (fun c => (codeTable c).getD []) := by
  rw [encodeText, encodeLoop_eq] at h
  by_cases hall : ∀ c ∈ text, (codeTable c).isSome
  · rw [if_pos hall] at h
    exact ⟨hall, by simpa using h.symm⟩
  · rw [if_neg hall] at h
    exact absurd h (by simp)

/-! ## The claims -/

/-- C1, as stated, fails: the text "aaaa" is encoded to the empty stream and decoded
to the empty text; the text "a\0" cannot be encoded, its `NUL` having no code; and on
the empty text `buildHuffmanTree` calls `top()` on an empty queue. -/
theorem roundTrip_fails :
    codec tieFirst (buildFrequencyTable [97, 97, 97, 97]) [97, 97, 97, 97] = some [] ∧
    codec tieFirst (buildFrequencyTable [97, 0]) [97, 0] = none ∧
    codec tieFirst (buildFrequencyTable []) [] = none := by
  decide

/-- C1, amended: for every text with at least two distinct symbols and no `NUL`,
whatever the enumeration order of its frequency table and the tie-breaking of the
queue, decoding the encoded text against the tree it was encoded with returns the text. -/
theorem roundTrip_of_two_symbols (tie : PQ → Nat) (x : CString) (freqTable : FreqTable)
    (hperm : freqTable.Perm (buildFrequencyTable x)) (hnul : NUL ∉ x)
    (a b : CChar) (ha : a ∈ x) (hb : b ∈ x) (hab : a ≠ b) :
    codec tie freqTable x = some x := by
  obtain ⟨root, hroot, hwf, -, hnd, hmem⟩ :=
    buildHuffmanTree_of_text tie x freqTable hperm (List.ne_nil_of_mem ha)
  obtain ⟨l, r, hl, hr, rfl⟩ :=
    hwf.inner_of_two a b ((hmem a).mpr ha) ((hmem b).mpr hb) hab
  have hcodes : ∀ c ∈ x, ∃ p,
      codeTableOf (.node NUL (wrap32 (l.frequency + r.frequency)) l r) c = some p ∧
      (c, p) ∈ leafCodes (.node NUL (wrap32 (l.frequency + r.frequency)) l r) := by
    intro c hc
    obtain ⟨e, he, rfl⟩ := List.mem_map.mp ((hmem c).mpr hc)
    have hne : e.1 ≠ NUL := fun h => hnul (h ▸ hc)
    refine ⟨e.2, ?_, he⟩
    have := buildHuffmanCodeTable_leaf hwf CodeTable.empty [] e.1 e.2 hnd he hne
    simpa [codeTableOf] using this
  have henc : encodeText x (codeTableOf (.node NUL (wrap32 (l.frequency + r.frequency)) l r)) =
      some (x.flatMap
        (fun c => (codeTableOf (.node NUL (wrap32 (l.frequency + r.frequency)) l r) c).getD [])) := by
    rw [encodeText, encodeLoop_eq, if_pos]
    · simp
    · intro c hc
      obtain ⟨p, hp, -⟩ := hcodes c hc
      simp [hp]
  have hdec := decodeLoop_codes l r hl hr _ x hcodes [] []
  simp only [List.append_nil, List.nil_append, decodeLoop] at hdec
  simp only [codec, hroot, henc, decodeText]
  exact hdec

/-- C1, amended, at "abracadabra" with the table enumerated in reverse. -/
theorem roundTrip_of_two_symbols_witness :
    codec tieFirst
      (buildFrequencyTable [97, 98, 114, 97, 99, 97, 100, 97, 98, 114, 97]).reverse
      [97, 98, 114, 97, 99, 97, 100, 97, 98, 114, 97] =
    some [97, 98, 114, 97, 99, 97, 100, 97, 98, 114, 97] :=
  roundTrip_of_two_symbols tieFirst [97, 98, 114, 97, 99, 97, 100, 97, 98, 114, 97]
    _ (List.reverse_perm _) (by decide) 97 98 (by decide) (by decide) (by decide)

/-- The frequency table of a symbol repeated `n + 1` times is its single entry, with
the count as an `int`. -/
theorem buildFrequencyTable_replicate (c : CChar) (n : Nat) :
    buildFrequencyTable (List.replicate (n + 1) c) = [(c, wrap32 ((n : Int) + 1))] := by
  induction n with
  | zero => rfl
  | succ k ih =>
    rw [List.replicate_succ', buildFrequencyTable_snoc, ih]
    have h : FreqTable.incr c [(c, wrap32 ((k : Int) + 1))] =
        [(c, wrap32 (wrap32 ((k : Int) + 1) + 1))] := by
      simp only [FreqTable.incr, if_true]
    rw [h, wrap32_succ]
    push_cast
    rfl

/-- From a table with one entry `buildHuffmanTree` returns the single leaf. -/
theorem buildHuffmanTree_single (tie : PQ → Nat) (c : CChar) (f : Int) :
    buildHuffmanTree tie [(c, f)] = some (.node c f .null .null) := by
  simp [buildHuffmanTree, pushLeaves, pqPush, HuffmanNode.new, mergeLoop, pqTop_singleton]

/-- C2 fails in the code for every text made of one symbol other than `NUL`, repeated
`n + 1` times ("aaaa" is `c = 97`, `n = 3`): the tree is the single leaf, the code table
gives the symbol the empty code, the encoded text is empty, and decoding it returns
the empty text instead of the input. -/
theorem single_symbol_code_empty (tie : PQ → Nat) (c : CChar) (n : Nat) (hc : c ≠ NUL) :
    buildHuffmanTree tie (buildFrequencyTable (List.replicate (n + 1) c)) =
      some (.node c (wrap32 ((n : Int) + 1)) .null .null) ∧
    codeTableOf (.node c (wrap32 ((n : Int) + 1)) .null .null) c = some [] ∧
    encodeText (List.replicate (n + 1) c)
      (codeTableOf (.node c (wrap32 ((n : Int) + 1)) .null .null)) = some [] ∧
    decodeText [] (.node c (wrap32 ((n : Int) + 1)) .null .null) = some [] ∧
    codec tie (buildFrequencyTable (List.replicate (n + 1) c)) (List.replicate (n + 1) c)
      = some [] := by
  have hbuild : buildHuffmanTree tie (buildFrequencyTable (List.replicate (n + 1) c)) =
      some (.node c (wrap32 ((n : Int) + 1)) .null .null) := by
    rw [buildFrequencyTable_replicate]
    exact buildHuffmanTree_single tie c _
  have hcode : codeTableOf (.node c (wrap32 ((n : Int) + 1)) .null .null) c = some [] := by
    simp [codeTableOf, buildHuffmanCodeTable, hc, CodeTable.set]
  have henc : encodeText (List.replicate (n + 1) c)
      (codeTableOf (.node c (wrap32 ((n : Int) + 1)) .null .null)) = some [] := by
    rw [encodeText, encodeLoop_eq, if_pos]
    · simp [hcode]
    · intro d hd
      rw [List.eq_of_mem_replicate hd, hcode]
      rfl
  refine ⟨hbuild, hcode, henc, rfl, ?_⟩
  simp only [codec, hbuild, henc]
  rfl

/-- C2 at "aaaa": its code is empty and the decoded text is empty. -/
theorem single_symbol_code_empty_witness :
    (97 : CChar) ≠ NUL ∧
    codec tieFirst (buildFrequencyTable (List.replicate (3 + 1) 97)) (List.replicate (3 + 1) 97)
      = some [] :=
  ⟨by decide, (single_symbol_code_empty tieFirst 97 3 (by decide)).2.2.2.2⟩

/-- C3: for every non-empty frequency table, whatever the tie-breaking, the tree is
built and in its code table no code of a symbol is a prefix of the code of another
symbol. -/
theorem codeTable_prefix_free (tie : PQ → Nat) (freqTable : FreqTable)
    (hne : freqTable ≠ []) :
    ∃ root, buildHuffmanTree tie freqTable = some root ∧
      ∀ (a b : CChar) (ca cb : CString), a ≠ b →
        codeTableOf root a = some ca → codeTableOf root b = some cb →
        ¬ ca <+: cb ∧ ¬ cb <+: ca := by
  obtain ⟨root, hroot, hwf, -⟩ := buildHuffmanTree_spec tie freqTable hne
  refine ⟨root, hroot, ?_⟩
  intro a b ca cb hab ha hb
  obtain ⟨-, hma⟩ := codeTableOf_sound hwf a ca ha
  obtain ⟨-, hmb⟩ := codeTableOf_sound hwf b cb hb
  constructor
  · intro hpre
    exact hab (leafCodes_prefix_eq hwf a b ca cb hma hmb hpre).1
  · intro hpre
    exact hab (leafCodes_prefix_eq hwf b a cb ca hmb hma hpre).1.symm

/-- C3 at the table of "abracadabra". -/
theorem codeTable_prefix_free_witness :
    ([(97, 5), (98, 2), (114, 2), (99, 1), (100, 1)] : FreqTable) ≠ [] ∧
    ∃ root, buildHuffmanTree tieFirst [(97, 5), (98, 2), (114, 2), (99, 1), (100, 1)]
        = some root ∧
      ∀ (a b : CChar) (ca cb : CString), a ≠ b →
        codeTableOf root a = some ca → codeTableOf root b = some cb →
        ¬ ca <+: cb ∧ ¬ cb <+: ca :=
  ⟨by simp, codeTable_prefix_free tieFirst _ (by simp)⟩

/-- C4, as stated, fails: in the tree built for the text "a\0" the leaf of `NUL` gets
no entry in the code table, and `encodeText` takes its failure branch. -/
theorem nul_symbol_has_no_code :
    ∃ root, buildHuffmanTree tieFirst (buildFrequencyTable [97, 0]) = some root ∧
      (0 : CChar) ∈ ([97, 0] : CString) ∧
      codeTableOf root 0 = none ∧
      encodeText [97, 0] (codeTableOf root) = none :=
  ⟨.node 0 2 (.node 97 1 .null .null) (.node 0 1 .null .null),
    by decide, by decide, by decide, by decide⟩

/-- C4, amended: for every non-empty text without `NUL`, whatever the enumeration
order of its frequency table and the tie-breaking, the tree is built, its code table has
an entry for every symbol of the text, and `encodeText` returns an encoded text. -/
theorem every_symbol_has_code (tie : PQ → Nat) (x : CString) (freqTable : FreqTable)
    (hperm : freqTable.Perm (buildFrequencyTable x)) (hne : x ≠ []) (hnul : NUL ∉ x) :
    ∃ root, buildHuffmanTree tie freqTable = some root ∧
      (∀ c ∈ x, ∃ code, codeTableOf root c = some code) ∧
      ∃ e, encodeText x (codeTableOf root) = some e := by
  obtain ⟨root, hroot, hwf, -, hnd, hmem⟩ :=
    buildHuffmanTree_of_text tie x freqTable hperm hne
  have hcodes : ∀ c ∈ x, ∃ code, codeTableOf root c = some code := by
    intro c hc
    obtain ⟨e, he, rfl⟩ := List.mem_map.mp ((hmem c).mpr hc)
    have hc0 : e.1 ≠ NUL := fun h => hnul (h ▸ hc)
    exact ⟨[] ++ e.2, buildHuffmanCodeTable_leaf hwf CodeTable.empty [] e.1 e.2 hnd he hc0⟩
  refine ⟨root, hroot, hcodes, ?_⟩
  rw [encodeText, encodeLoop_eq, if_pos]
  · exact ⟨_, rfl⟩
  · intro c hc
    obtain ⟨code, hcode⟩ := hcodes c hc
    simp [hcode]

/-- C4, amended, at "aaaa". -/
theorem every_symbol_has_code_witness :
    ([97, 97, 97, 97] : CString) ≠ [] ∧ NUL ∉ ([97, 97, 97, 97] : CString) ∧
    ∃ root, buildHuffmanTree tieLast (buildFrequencyTable [97, 97, 97, 97]) = some root ∧
      (∀ c ∈ ([97, 97, 97, 97] : CString), ∃ code, codeTableOf root c = some code) ∧
      ∃ e, encodeText [97, 97, 97, 97] (codeTableOf root) = some e :=
  ⟨by decide, by decide,
    every_symbol_has_code tieLast [97, 97, 97, 97] _ (List.Perm.refl _) (by decide)
      (by decide)⟩

/-- C5 fails in the code on the table of "ab", with `a` and `b` counted once each:
enumerated as `a, b` the tree gives `a` the code "0", enumerated as `b, a` (the same
table) it gives `a` the code "1"; so "ab", compressed under the first enumeration and
decompressed under the second, comes back as "ba". -/
theorem codeTable_depends_on_enumeration :
    buildFrequencyTable [97, 98] = [(97, 1), (98, 1)] ∧
    ([(98, 1), (97, 1)] : FreqTable).Perm [(97, 1), (98, 1)] ∧
    (buildHuffmanTree tieFirst [(97, 1), (98, 1)]).map (fun t => codeTableOf t 97)
      = some (some [48]) ∧
    (buildHuffmanTree tieFirst [(98, 1), (97, 1)]).map (fun t => codeTableOf t 97)
      = some (some [49]) ∧
    compressThenDecompress tieFirst [(97, 1), (98, 1)] [(98, 1), (97, 1)] [97, 98]
      = some [98, 97] :=
  ⟨by decide, List.Perm.swap _ _ _, by decide, by decide, by decide⟩

/-- C6, as stated, fails: for the text of `2^31` characters `a` the count of `a`, a
32-bit `int`, has wrapped to `-2^31`: it is not the number of occurrences, it is below 1,
and the counts do not add up to the length of the text. -/
theorem count_overflows :
    buildFrequencyTable (List.replicate (2147483647 + 1) 97) = [(97, -2147483648)] ∧
    (List.replicate (2147483647 + 1) (97 : CChar)).length = 2147483648 ∧
    (List.replicate (2147483647 + 1) (97 : CChar)).count 97 = 2147483648 := by
  refine ⟨?_, ?_, ?_⟩
  · rw [buildFrequencyTable_replicate]
    rfl
  · rw [List.length_replicate]
  · rw [List.count_replicate_self]

/-- C6, amended: for every text of fewer than `2^31` characters, `buildFrequencyTable`
maps every symbol to its number of occurrences in the text and has no entry for other
symbols; its keys are distinct, every entry is a symbol of the text with a count of at
least 1, the counts add up to the length of the text, and the empty text gives the
empty table. -/
theorem buildFrequencyTable_correct (x : CString) (hlen : x.length < 2147483648) :
    (∀ c, FreqTable.find c (buildFrequencyTable x) =
      if c ∈ x then some (x.count c : Int) else none) ∧
    ((buildFrequencyTable x).map Prod.fst).Nodup ∧
    (∀ e ∈ buildFrequencyTable x, e.1 ∈ x ∧ e.2 = (x.count e.1 : Int) ∧ 1 ≤ e.2) ∧
    ((buildFrequencyTable x).map Prod.snd).sum = (x.length : Int) ∧
    buildFrequencyTable [] = [] := by
  refine ⟨buildFrequencyTable_find_of_lt x hlen, buildFrequencyTable_keys_nodup x, ?_,
    buildFrequencyTable_sum x hlen, rfl⟩
  intro e he
  have hfind := find_of_mem _ (buildFrequencyTable_keys_nodup x) e he
  rw [buildFrequencyTable_find_of_lt x hlen] at hfind
  by_cases hmem : e.1 ∈ x
  · rw [if_pos hmem] at hfind
    have hcount : (x.count e.1 : Int) = e.2 := Option.some.inj hfind
    have hpos : 0 < x.count e.1 := List.count_pos_iff.mpr hmem
    refine ⟨hmem, hcount.symm, ?_⟩
    rw [← hcount]
    exact_mod_cast hpos
  · rw [if_neg hmem] at hfind
    exact absurd hfind (by simp)

/-- C6, amended, at "abracadabra". -/
theorem buildFrequencyTable_correct_witness :
    ([97, 98, 114, 97, 99, 97, 100, 97, 98, 114, 97] : CString).length < 2147483648 ∧
    ((buildFrequencyTable [97, 98, 114, 97, 99, 97, 100, 97, 98, 114, 97]).map
      Prod.snd).sum =
      (([97, 98, 114, 97, 99, 97, 100, 97, 98, 114, 97] : CString).length : Int) :=
  ⟨by decide,
    (buildFrequencyTable_correct [97, 98, 114, 97, 99, 97, 100, 97, 98, 114, 97]
      (by decide)).2.2.2.1⟩

/-- The entries of the table of a text of fewer than `2^31` characters are positive. -/
theorem buildFrequencyTable_pos (x : CString) (hlen : x.length < 2147483648) :
    ∀ e ∈ buildFrequencyTable x, 1 ≤ e.2 := by
  intro e he
  have hfind := find_of_mem _ (buildFrequencyTable_keys_nodup x) e he
  rw [buildFrequencyTable_find_of_lt x hlen] at hfind
  by_cases hmem : e.1 ∈ x
  · rw [if_pos hmem] at hfind
    have hcount : (x.count e.1 : Int) = e.2 := Option.some.inj hfind
    have hpos : 0 < x.count e.1 := List.count_pos_iff.mpr hmem
    rw [← hcount]
    exact_mod_cast hpos
  · rw [if_neg hmem] at hfind
    exact absurd hfind (by simp)

/-- C7, as stated, fails: for the text of `2^31` characters `b` the tree is the single
leaf with frequency `-2^31`, so neither the sum of the leaf frequencies nor the
frequency field of the root is the length of the text, `2^31`. -/
theorem root_frequency_overflows :
    buildHuffmanTree tieFirst (buildFrequencyTable (List.replicate (2147483647 + 1) 98)) =
      some (.node 98 (-2147483648) .null .null) ∧
    ((leaves (.node 98 (-2147483648) .null .null)).map Prod.snd).sum = -2147483648 ∧
    (HuffmanNode.node 98 (-2147483648) .null .null).frequency = -2147483648 ∧
    (List.replicate (2147483647 + 1) (98 : CChar)).length = 2147483648 := by
  refine ⟨?_, by decide, rfl, ?_⟩
  · rw [buildFrequencyTable_replicate, buildHuffmanTree_single]
    rfl
  · rw [List.length_replicate]

/-- C7, amended: for every non-empty text of fewer than `2^31` characters, whatever
the enumeration order of its frequency table and the tie-breaking, the tree is built,
the frequencies of its leaves add up to the length of the text, and so does the
frequency field of its root. -/
theorem frequency_conservation (tie : PQ → Nat) (x : CString) (freqTable : FreqTable)
    (hperm : freqTable.Perm (buildFrequencyTable x)) (hne : x ≠ [])
    (hlen : x.length < 2147483648) :
    ∃ root, buildHuffmanTree tie freqTable = some root ∧
      ((leaves root).map Prod.snd).sum = (x.length : Int) ∧
      root.frequency = (x.length : Int) := by
  obtain ⟨root, hroot, hwf, hleaves, -, -⟩ :=
    buildHuffmanTree_of_text tie x freqTable hperm hne
  have hsum : ((leaves root).map Prod.snd).sum = (x.length : Int) := by
    rw [← buildFrequencyTable_sum x hlen]
    exact ((hleaves.trans hperm).map Prod.snd).sum_eq
  have hnn : ∀ e ∈ leaves root, 0 ≤ e.2 := by
    intro e he
    have := buildFrequencyTable_pos x hlen e ((hleaves.trans hperm).subset he)
    omega
  refine ⟨root, hroot, hsum, ?_⟩
  rw [hwf.frequency_eq hnn (by rw [hsum]; exact_mod_cast hlen), hsum]

/-- C7, amended, at "abracadabra", the table enumerated in reverse. -/
theorem frequency_conservation_witness :
    ([97, 98, 114, 97, 99, 97, 100, 97, 98, 114, 97] : CString) ≠ [] ∧
    ([97, 98, 114, 97, 99, 97, 100, 97, 98, 114, 97] : CString).length < 2147483648 ∧
    ∃ root, buildHuffmanTree tieLast
        (buildFrequencyTable [97, 98, 114, 97, 99, 97, 100, 97, 98, 114, 97]).reverse
        = some root ∧
      ((leaves root).map Prod.snd).sum =
        (([97, 98, 114, 97, 99, 97, 100, 97, 98, 114, 97] : CString).length : Int) ∧
      root.frequency =
        (([97, 98, 114, 97, 99, 97, 100, 97, 98, 114, 97] : CString).length : Int) :=
  ⟨by decide, by decide,
    frequency_conservation tieLast [97, 98, 114, 97, 99, 97, 100, 97, 98, 114, 97] _
      (List.reverse_perm _) (by decide) (by decide)⟩

/-- C8, as stated, fails: in the tree built for "abc" the symbol `a` has the path "10";
the stream "01" decodes `c` from "0" and then ends on the first bit of a path, and
`decodeText` returns "c" without reporting a failure. -/
theorem truncated_stream_accepted :
    ∃ root, buildHuffmanTree tieFirst (buildFrequencyTable [97, 98, 99]) = some root ∧
      ((97 : CChar), [c1] ++ [c0]) ∈ leafCodes root ∧
      encodeText [99] (codeTableOf root) = some [c0] ∧
      decodeText ([c0] ++ [c1]) root = some [99] :=
  ⟨.node 0 3 (.node 99 1 .null .null)
      (.node 0 2 (.node 97 1 .null .null) (.node 98 1 .null .null)),
    by decide, by decide, by decide, by decide⟩

/-- C8, amended: for every tree built from a non-empty table, when the stream is the
encoded text of some symbols followed by a non-empty proper prefix `p` of a
root-to-leaf path, `decodeText` reports no failure: it returns those symbols, and the
incomplete path at the end is dropped silently. -/
theorem truncated_stream_dropped (tie : PQ → Nat) (freqTable : FreqTable)
    (hne : freqTable ≠ []) :
    ∃ root, buildHuffmanTree tie freqTable = some root ∧
      ∀ (syms e : CString) (c : CChar) (p q : CString),
        encodeText syms (codeTableOf root) = some e →
        (c, p ++ q) ∈ leafCodes root → p ≠ [] → q ≠ [] →
        decodeText (e ++ p) root = some syms := by
  obtain ⟨root, hroot, hwf, -⟩ := buildHuffmanTree_spec tie freqTable hne
  refine ⟨root, hroot, ?_⟩
  intro syms e c p q henc hpath _ hq
  cases hwf with
  | leaf d f =>
    have h : c = d ∧ p ++ q = [] := by simpa [leafCodes_leaf] using hpath
    exact absurd (List.append_eq_nil.mp h.2).2 hq
  | inner l r hl hr =>
    obtain ⟨hall, rfl⟩ := encodeText_some syms _ e henc
    have hcodes : ∀ s ∈ syms, ∃ code,
        codeTableOf (.node NUL (wrap32 (l.frequency + r.frequency)) l r) s = some code ∧
        (s, code) ∈ leafCodes (.node NUL (wrap32 (l.frequency + r.frequency)) l r) := by
      intro s hs
      obtain ⟨code, hcode⟩ := Option.isSome_iff_exists.mp (hall s hs)
      exact ⟨code, hcode, (codeTableOf_sound (WellFormed.inner l r hl hr) s code hcode).2⟩
    rw [decodeText, decodeLoop_codes l r hl hr _ syms hcodes [] p,
      decodeLoop_partial _ (WellFormed.inner l r hl hr) c p q _ hpath hq]
    simp

/-- C8, amended, at the frequency table of "abracadabra". -/
theorem truncated_stream_dropped_witness :
    ([(97, 5), (98, 2), (114, 2), (99, 1), (100, 1)] : FreqTable) ≠ [] ∧
    ∃ root, buildHuffmanTree tieFirst [(97, 5), (98, 2), (114, 2), (99, 1), (100, 1)]
        = some root ∧
      ∀ (syms e : CString) (c : CChar) (p q : CString),
        encodeText syms (codeTableOf root) = some e →
        (c, p ++ q) ∈ leafCodes root → p ≠ [] → q ≠ [] →
        decodeText (e ++ p) root = some syms :=
  ⟨by simp, truncated_stream_dropped tieFirst _ (by simp)⟩

/-- C9 fails in the code on the empty text: its frequency table is empty, the queue of
`buildHuffmanTree` stays empty, and the function ends by calling `pq.top()` on it,
which is undefined; no tree is obtained and the pipeline has no result. -/
theorem empty_input_top_of_empty_queue (tie : PQ → Nat) :
    buildFrequencyTable [] = [] ∧
    pushLeaves (buildFrequencyTable []) = [] ∧
    mergeLoop tie 0 [] = some [] ∧
    buildHuffmanTree tie (buildFrequencyTable []) = none ∧
    codec tie (buildFrequencyTable []) [] = none := by
  have h : buildHuffmanTree tie (buildFrequencyTable []) = none := by
    simp [buildHuffmanTree, buildFrequencyTable, pushLeaves, mergeLoop, pqTop_nil]
  refine ⟨rfl, rfl, rfl, h, ?_⟩
  simp only [codec, h]

theorem flatMap_getD_eq_flatten (codeTable : CodeTable) :
    ∀ (text : CString) (codes : List CString), text.map codeTable = codes.map some →
      text.flatMap (fun c => (codeTable c).getD []) = codes.flatten := by
  intro text
  induction text with
  | nil =>
    intro codes h
    cases codes with
    | nil => rfl
    | cons a rest => simp at h
  | cons c rest ih =>
    intro codes h
    cases codes with
    | nil => simp at h
    | cons a more =>
      simp only [List.map_cons, List.cons.injEq] at h
      rw [List.flatMap_cons, List.flatten_cons, h.1, ih more h.2]
      rfl

/-- C10: `encodeText` fails (the `std::out_of_range` of `codeTable.at`) exactly when
some symbol of the text has no entry in the code table; and when the table gives the
symbols of the text, in order, the codes `codes`, the result is the concatenation of
`codes`, in that order, with no symbol skipped. -/
theorem encodeText_spec (text : CString) (codeTable : CodeTable) :
    (encodeText text codeTable = none ↔ ∃ c ∈ text, codeTable c = none) ∧
    (∀ codes : List CString, text.map codeTable = codes.map some →
      encodeText text codeTable = some codes.flatten) := by
  constructor
  · rw [encodeText, encodeLoop_eq]
    by_cases hall : ∀ c ∈ text, (codeTable c).isSome
    · rw [if_pos hall]
      constructor
      · intro h
        exact absurd h (by simp)
      · rintro ⟨c, hc, hnone⟩
        have := hall c hc
        rw [hnone] at this
        exact absurd this (by simp)
    · rw [if_neg hall]
      push_neg at hall
      obtain ⟨c, hc, hnot⟩ := hall
      refine ⟨fun _ => ⟨c, hc, ?_⟩, fun _ => rfl⟩
      cases hcode : codeTable c with
      | none => rfl
      | some code => rw [hcode] at hnot; exact absurd rfl hnot
  · intro codes hmap
    have hall : ∀ c ∈ text, (codeTable c).isSome := by
      intro c hc
      have hmem : codeTable c ∈ codes.map some := by
        rw [← hmap]
        exact List.mem_map_of_mem codeTable hc
      obtain ⟨code, -, hcode⟩ := List.mem_map.mp hmem
      rw [← hcode]
      rfl
    rw [encodeText, encodeLoop_eq, if_pos hall, flatMap_getD_eq_flatten codeTable text codes hmap]
    simp

/-! ## Shape of the built tree -/

theorem WellFormed.strictlyBinary {t : HuffmanNode} (hwf : WellFormed t) :
    strictlyBinary t = true := by
  induction hwf with
  | leaf d f => simp [Huffman.strictlyBinary]
  | inner l r hl hr ihl ihr => simp [Huffman.strictlyBinary, ihl, ihr]

theorem WellFormed.internalCount_succ {t : HuffmanNode} (hwf : WellFormed t) :
    internalCount t + 1 = (leaves t).length := by
  induction hwf with
  | leaf d f => simp [internalCount, leaves]
  | inner l r hl hr ihl ihr =>
    rw [leaves_inner _ _ l r hl.ne_null, List.length_append, ← ihl, ← ihr]
    simp [internalCount, hl.ne_null]
    omega

theorem WellFormed.of_mem_nodes {t : HuffmanNode} (hwf : WellFormed t) :
    ∀ n ∈ nodes t, WellFormed n := by
  induction hwf with
  | leaf d f =>
    intro n hn
    have : n = .node d f .null .null := by simpa [nodes] using hn
    rw [this]
    exact WellFormed.leaf d f
  | inner l r hl hr ihl ihr =>
    intro n hn
    simp only [nodes, List.mem_cons, List.mem_append] at hn
    rcases hn with rfl | hn | hn
    · exact WellFormed.inner l r hl hr
    · exact ihl n hn
    · exact ihr n hn

/-- C13: for every frequency table with `k ≥ 2` entries (distinct keys), whatever the
tie-breaking, the tree is built and is strictly binary; its leaves are exactly the
entries of the table, each symbol once with its count, so there are `k` of them; and
it has `k - 1` nodes with children. -/
theorem tree_shape (tie : PQ → Nat) (freqTable : FreqTable)
    (hnd : (freqTable.map Prod.fst).Nodup) (hk : 2 ≤ freqTable.length) :
    ∃ root, buildHuffmanTree tie freqTable = some root ∧
      strictlyBinary root = true ∧
      (leaves root).Perm freqTable ∧
      ((leaves root).map Prod.fst).Nodup ∧
      (leaves root).length = freqTable.length ∧
      internalCount root = freqTable.length - 1 := by
  have hne : freqTable ≠ [] := by
    intro h
    rw [h] at hk
    simp at hk
  obtain ⟨root, hroot, hwf, hleaves⟩ := buildHuffmanTree_spec tie freqTable hne
  have hlen : (leaves root).length = freqTable.length := hleaves.length_eq
  refine ⟨root, hroot, hwf.strictlyBinary, hleaves, ?_, hlen, ?_⟩
  · exact (hleaves.map Prod.fst).nodup_iff.mpr hnd
  · have := hwf.internalCount_succ
    omega

/-- C13 at the table of "abracadabra": five leaves, four nodes with children. -/
theorem tree_shape_witness :
    (([(97, 5), (98, 2), (114, 2), (99, 1), (100, 1)] : FreqTable).map Prod.fst).Nodup ∧
    2 ≤ ([(97, 5), (98, 2), (114, 2), (99, 1), (100, 1)] : FreqTable).length ∧
    ∃ root, buildHuffmanTree tieLast [(97, 5), (98, 2), (114, 2), (99, 1), (100, 1)]
        = some root ∧
      strictlyBinary root = true ∧
      (leaves root).Perm [(97, 5), (98, 2), (114, 2), (99, 1), (100, 1)] ∧
      ((leaves root).map Prod.fst).Nodup ∧
      (leaves root).length = 5 ∧
      internalCount root = 5 - 1 :=
  ⟨by decide, by decide, tree_shape tieLast _ (by decide) (by decide)⟩

/-- In a well-formed tree with non-negative leaf frequencies, the leaves of every node
are non-negative and add up to at most the sum over the whole tree. -/
theorem WellFormed.nodes_bound {t : HuffmanNode} (hwf : WellFormed t) :
    (∀ e ∈ leaves t, 0 ≤ e.2) → ∀ n ∈ nodes t,
      (∀ e ∈ leaves n, 0 ≤ e.2) ∧
      ((leaves n).map Prod.snd).sum ≤ ((leaves t).map Prod.snd).sum := by
  induction hwf with
  | leaf d f =>
    intro hnn n hn
    have : n = .node d f .null .null := by simpa [nodes] using hn
    rw [this]
    exact ⟨hnn, le_refl _⟩
  | inner l r hl hr ihl ihr =>
    intro hnn n hn
    have hleaves := leaves_inner NUL (wrap32 (l.frequency + r.frequency)) l r hl.ne_null
    have hnl : ∀ e ∈ leaves l, 0 ≤ e.2 := fun e he =>
      hnn e (by rw [hleaves]; exact List.mem_append_left _ he)
    have hnr : ∀ e ∈ leaves r, 0 ≤ e.2 := fun e he =>
      hnn e (by rw [hleaves]; exact List.mem_append_right _ he)
    have h1 := sum_snd_nonneg _ hnl
    have h2 := sum_snd_nonneg _ hnr
    simp only [nodes, List.mem_cons, List.mem_append] at hn
    rcases hn with rfl | hn | hn
    · exact ⟨hnn, le_refl _⟩
    · obtain ⟨h3, h4⟩ := ihl hnl n hn
      refine ⟨h3, ?_⟩
      rw [hleaves, List.map_append, List.sum_append]
      omega
    · obtain ⟨h3, h4⟩ := ihr hnr n hn
      refine ⟨h3, ?_⟩
      rw [hleaves, List.map_append, List.sum_append]
      omega

/-- C15, as stated, fails: for the table `(b, 1), (a, 2147483647)` the root holds the
frequency `-2147483648`, the 32-bit sum of its children's frequencies `1` and
`2147483647`, and not their sum `2147483648`. -/
theorem internal_frequency_overflows :
    buildHuffmanTree tieFirst [(98, 1), (97, 2147483647)] =
      some (.node 0 (-2147483648) (.node 98 1 .null .null)
        (.node 97 2147483647 .null .null)) ∧
    (-2147483648 : Int) ≠
      (HuffmanNode.node 98 1 .null .null).frequency +
        (HuffmanNode.node 97 2147483647 .null .null).frequency := by
  decide

/-- C15, amended: in the tree built from any non-empty table, whatever the
tie-breaking, every node that has a child holds `NUL`, has two children, and has as
frequency the sum of the frequencies of its left and right children as a 32-bit `int`;
this is their sum whenever the counts of the table are not negative and add up to less
than `2^31`. -/
theorem internal_node_frequency (tie : PQ → Nat) (freqTable : FreqTable)
    (hne : freqTable ≠ []) :
    ∃ root, buildHuffmanTree tie freqTable = some root ∧
      ∀ (d : CChar) (f : Int) (l r : HuffmanNode),
        HuffmanNode.node d f l r ∈ nodes root → ¬ (l = .null ∧ r = .null) →
        d = NUL ∧ l ≠ .null ∧ r ≠ .null ∧ f = wrap32 (l.frequency + r.frequency) ∧
        ((∀ e ∈ freqTable, 0 ≤ e.2) → (freqTable.map Prod.snd).sum < 2147483648 →
          f = l.frequency + r.frequency) := by
  obtain ⟨root, hroot, hwf, hleaves⟩ := buildHuffmanTree_spec tie freqTable hne
  refine ⟨root, hroot, ?_⟩
  intro d f l r hmem hchild
  have hn := hwf.of_mem_nodes _ hmem
  cases hn with
  | leaf => exact absurd ⟨rfl, rfl⟩ hchild
  | inner _ _ hl hr =>
    refine ⟨rfl, hl.ne_null, hr.ne_null, rfl, ?_⟩
    intro hnn hsum
    have hnnroot : ∀ e ∈ leaves root, 0 ≤ e.2 := fun e he => hnn e (hleaves.subset he)
    have hsumroot : ((leaves root).map Prod.snd).sum < 2147483648 := by
      rw [(hleaves.map Prod.snd).sum_eq]
      exact hsum
    obtain ⟨hnode, hle⟩ := hwf.nodes_bound hnnroot _ hmem
    rw [leaves_inner _ _ l r hl.ne_null] at hnode hle
    rw [List.map_append, List.sum_append] at hle
    have hnl : ∀ e ∈ leaves l, 0 ≤ e.2 := fun e he => hnode e (List.mem_append_left _ he)
    have hnr : ∀ e ∈ leaves r, 0 ≤ e.2 := fun e he => hnode e (List.mem_append_right _ he)
    have h1 := sum_snd_nonneg _ hnl
    have h2 := sum_snd_nonneg _ hnr
    have e1 := hl.frequency_eq hnl (by omega)
    have e2 := hr.frequency_eq hnr (by omega)
    rw [e1, e2]
    exact wrap32_of_range _ (by omega) (by omega)

/-- C15, amended, at the table of "abracadabra". -/
theorem internal_node_frequency_witness :
    ([(97, 5), (98, 2), (114, 2), (99, 1), (100, 1)] : FreqTable) ≠ [] ∧
    ∃ root, buildHuffmanTree tieFirst [(97, 5), (98, 2), (114, 2), (99, 1), (100, 1)]
        = some root ∧
      ∀ (d : CChar) (f : Int) (l r : HuffmanNode),
        HuffmanNode.node d f l r ∈ nodes root → ¬ (l = .null ∧ r = .null) →
        d = NUL ∧ l ≠ .null ∧ r ≠ .null ∧ f = wrap32 (l.frequency + r.frequency) ∧
        ((∀ e ∈ ([(97, 5), (98, 2), (114, 2), (99, 1), (100, 1)] : FreqTable), 0 ≤ e.2) →
          (([(97, 5), (98, 2), (114, 2), (99, 1), (100, 1)] : FreqTable).map Prod.snd).sum
            < 2147483648 →
          f = l.frequency + r.frequency) :=
  ⟨by simp, internal_node_frequency tieFirst _ (by simp)⟩

/-- C17 fails in the code: on a tree that is a single leaf, `decodeText` steps from the
root to its absent child at the first character and dereferences it, for every
non-empty stream; nothing is emitted. Only the empty stream is decoded (to ""). -/
theorem single_leaf_decode_null (d : CChar) (f : Int) (bit : CChar) (rest : CString) :
    decodeText (bit :: rest) (.node d f .null .null) = none ∧
    decodeStep (.node d f .null .null) (.node d f .null .null, []) bit = none ∧
    decodeText [] (.node d f .null .null) = some [] := by
  refine ⟨?_, ?_, rfl⟩
  · by_cases h : bit = c0 <;> simp [decodeText, decodeLoop, h]
  · by_cases h : bit = c0 <;> simp [decodeStep, h]

/-- C18: for every text with at least two distinct symbols and no `NUL`, for every
enumeration order of its frequency table and every tie-breaking of the priority queue,
the tree `T` is built, `encodeText` returns the concatenation of the symbols' codes in
the table filled by `buildHuffmanCodeTable(T)`, and `decodeText` of that against `T`
returns the text. -/
theorem restricted_round_trip (tie : PQ → Nat) (x : CString) (freqTable : FreqTable)
    (hperm : freqTable.Perm (buildFrequencyTable x)) (hnul : NUL ∉ x)
    (a b : CChar) (ha : a ∈ x) (hb : b ∈ x) (hab : a ≠ b) :
    ∃ root e, buildHuffmanTree tie freqTable = some root ∧
      encodeText x (codeTableOf root) = some e ∧
      e = x.flatMap (fun c => (codeTableOf root c).getD []) ∧
      decodeText e root = some x := by
  obtain ⟨root, hroot, hwf, -, hnd, hmem⟩ :=
    buildHuffmanTree_of_text tie x freqTable hperm (List.ne_nil_of_mem ha)
  obtain ⟨l, r, hl, hr, rfl⟩ :=
    hwf.inner_of_two a b ((hmem a).mpr ha) ((hmem b).mpr hb) hab
  have hcodes : ∀ c ∈ x, ∃ p,
      codeTableOf (.node NUL (wrap32 (l.frequency + r.frequency)) l r) c = some p ∧
      (c, p) ∈ leafCodes (.node NUL (wrap32 (l.frequency + r.frequency)) l r) := by
    intro c hc
    obtain ⟨e, he, rfl⟩ := List.mem_map.mp ((hmem c).mpr hc)
    have hne : e.1 ≠ NUL := fun h => hnul (h ▸ hc)
    exact ⟨[] ++ e.2, buildHuffmanCodeTable_leaf hwf CodeTable.empty [] e.1 e.2 hnd he hne,
      by simpa using he⟩
  refine ⟨_, _, hroot, ?_, rfl, ?_⟩
  · rw [encodeText, encodeLoop_eq, if_pos]
    · simp
    · intro c hc
      obtain ⟨p, hp, -⟩ := hcodes c hc
      simp [hp]
  · have hdec := decodeLoop_codes l r hl hr _ x hcodes [] []
    simp only [List.append_nil, List.nil_append, decodeLoop] at hdec
    exact hdec

/-- C18 at "abracadabra", ties resolved towards the element pushed last. -/
theorem restricted_round_trip_witness :
    NUL ∉ ([97, 98, 114, 97, 99, 97, 100, 97, 98, 114, 97] : CString) ∧
    ∃ root e,
      buildHuffmanTree tieLast
        (buildFrequencyTable [97, 98, 114, 97, 99, 97, 100, 97, 98, 114, 97]) = some root ∧
      encodeText [97, 98, 114, 97, 99, 97, 100, 97, 98, 114, 97] (codeTableOf root)
        = some e ∧
      e = ([97, 98, 114, 97, 99, 97, 100, 97, 98, 114, 97] : CString).flatMap
        (fun c => (codeTableOf root c).getD []) ∧
      decodeText e root = some [97, 98, 114, 97, 99, 97, 100, 97, 98, 114, 97] :=
  ⟨by decide,
    restricted_round_trip tieLast [97, 98, 114, 97, 99, 97, 100, 97, 98, 114, 97] _
      (List.Perm.refl _) (by decide) 97 98 (by decide) (by decide) (by decide)⟩

/-! ## The decoder as a state machine -/

theorem decodeLoop_eq_run (root : HuffmanNode) (bits : CString) :
    ∀ (curr : HuffmanNode) (acc : CString),
      decodeLoop root bits curr acc = (decodeRun root bits (curr, acc)).map Prod.snd := by
  induction bits with
  | nil => intro curr acc; rfl
  | cons bit rest ih =>
    intro curr acc
    cases curr with
    | null => simp [decodeLoop, decodeRun, decodeStep]
    | node d0 f0 left right =>
      cases hch : (if bit = c0 then left else right) with
      | null => simp [decodeLoop, decodeRun, decodeStep, hch]
      | node d f l r =>
        by_cases hleaf : l = .null ∧ r = .null
        · simp [decodeLoop, decodeRun, decodeStep, hch, hleaf, ih]
        · simp [decodeLoop, decodeRun, decodeStep, hch, hleaf, ih]

theorem decodeRun_append (root : HuffmanNode) (bits more : CString) :
    ∀ state : HuffmanNode × CString,
      decodeRun root (bits ++ more) state =
        (decodeRun root bits state).bind (decodeRun root more) := by
  induction bits with
  | nil => intro state; rfl
  | cons bit rest ih =>
    intro state
    cases h : decodeStep root state bit with
    | none => simp [decodeRun, h]
    | some next => simp [decodeRun, h, ih]

theorem mem_nodes_self (d : CChar) (f : Int) (l r : HuffmanNode) :
    HuffmanNode.node d f l r ∈ nodes (.node d f l r) := by
  simp [nodes]

theorem mem_nodes_trans {t n m : HuffmanNode} (hn : n ∈ nodes t) (hm : m ∈ nodes n) :
    m ∈ nodes t := by
  induction t with
  | null => simp [nodes] at hn
  | node d f l r ihl ihr =>
    simp only [nodes, List.mem_cons, List.mem_append] at hn
    rcases hn with rfl | hn | hn
    · exact hm
    · simp only [nodes, List.mem_cons, List.mem_append]
      exact Or.inr (Or.inl (ihl hn))
    · simp only [nodes, List.mem_cons, List.mem_append]
      exact Or.inr (Or.inr (ihr hn))

theorem mem_nodes_child {t : HuffmanNode} {d : CChar} {f : Int} {l r : HuffmanNode}
    (h : HuffmanNode.node d f l r ∈ nodes t) (bit : CChar)
    (hne : (if bit = c0 then l else r) ≠ .null) :
    (if bit = c0 then l else r) ∈ nodes t := by
  apply mem_nodes_trans h
  simp only [nodes, List.mem_cons, List.mem_append]
  by_cases hb : bit = c0
  · simp only [hb, if_true] at hne ⊢
    cases l with
    | null => exact absurd rfl hne
    | node d1 f1 l1 r1 => exact Or.inr (Or.inl (mem_nodes_self _ _ _ _))
  · simp only [hb, if_false] at hne ⊢
    cases r with
    | null => exact absurd rfl hne
    | node d1 f1 l1 r1 => exact Or.inr (Or.inr (mem_nodes_self _ _ _ _))

/-- One step of the decoder from a node with two children inside a well-formed tree:
no null is dereferenced; either a leaf is reached, its symbol is emitted and the
position is the root again, or the position is the child, which has two children. -/
theorem decodeStep_spec {root : HuffmanNode} (hwf : WellFormed root)
    (hroot : hasTwoChildren root = true) {curr : HuffmanNode} (hmem : curr ∈ nodes root)
    (hcurr : hasTwoChildren curr = true) (out : CString) (bit : CChar) :
    ∃ next out', decodeStep root (curr, out) bit = some (next, out') ∧
      next ∈ nodes root ∧ hasTwoChildren next = true ∧
      (out' = out ∨ (∃ d, out' = out ++ [d] ∧ next = root)) := by
  have hc := hwf.of_mem_nodes curr hmem
  cases hc with
  | leaf d f => simp [hasTwoChildren] at hcurr
  | inner l r hl hr =>
    have hch : WellFormed (if bit = c0 then l else r) := by
      by_cases hb : bit = c0
      · simpa [hb] using hl
      · simpa [hb] using hr
    have hchmem : (if bit = c0 then l else r) ∈ nodes root :=
      mem_nodes_child hmem bit hch.ne_null
    cases hcase : (if bit = c0 then l else r) with
    | null => exact absurd hcase hch.ne_null
    | node d f a b =>
      rw [hcase] at hch hchmem
      cases hch with
      | leaf =>
        refine ⟨root, out ++ [d], ?_, ?_, hroot, Or.inr ⟨d, rfl, rfl⟩⟩
        · simp [decodeStep, hcase]
        · cases hwf with
          | leaf => simp [hasTwoChildren] at hroot
          | inner => exact mem_nodes_self _ _ _ _
      | inner _ _ ha hb =>
        refine ⟨_, out, ?_, hchmem, ?_, Or.inl rfl⟩
        · simp [decodeStep, hcase, ha.ne_null]
        · simp [hasTwoChildren, ha.ne_null, hb.ne_null]

/-- The decoder never fails on a well-formed tree whose root has two children: after
any characters its position is a node of the tree with two children, and it has
emitted at most one symbol per character. -/
theorem decodeRun_spec {root : HuffmanNode} (hwf : WellFormed root)
    (hroot : hasTwoChildren root = true) (bits : CString) :
    ∀ (curr : HuffmanNode) (out : CString), curr ∈ nodes root →
      hasTwoChildren curr = true →
      ∃ next out', decodeRun root bits (curr, out) = some (next, out') ∧
        next ∈ nodes root ∧ hasTwoChildren next = true ∧
        out'.length ≤ out.length + bits.length := by
  induction bits with
  | nil =>
    intro curr out hmem hcurr
    exact ⟨curr, out, rfl, hmem, hcurr, by simp⟩
  | cons bit rest ih =>
    intro curr out hmem hcurr
    obtain ⟨next, out1, hstep, hnmem, hnext, hout⟩ :=
      decodeStep_spec hwf hroot hmem hcurr out bit
    obtain ⟨fin, out2, hrun, hfmem, hfin, hlen⟩ := ih next out1 hnmem hnext
    refine ⟨fin, out2, ?_, hfmem, hfin, ?_⟩
    · simp [decodeRun, hstep, hrun]
    · have h1 : out1.length ≤ out.length + 1 := by
        rcases hout with rfl | ⟨d, rfl, -⟩ <;> simp
      simp only [List.length_cons]
      omega

/-- C20: for every frequency table with at least two entries, whatever the
tie-breaking, the tree is built, its root has two children, and for every character
string `decodeText` dereferences no null: after the whole string the position `curr` is
a node of the tree with two children, the call returns a text no longer than the
string, and on any further character the decoder either emits nothing or emits one
symbol and is back at the root. -/
theorem decodeText_total (tie : PQ → Nat) (freqTable : FreqTable)
    (hk : 2 ≤ freqTable.length) :
    ∃ root, buildHuffmanTree tie freqTable = some root ∧ hasTwoChildren root = true ∧
      ∀ bits : CString, ∃ curr out,
        decodeRun root bits (root, []) = some (curr, out) ∧
        curr ∈ nodes root ∧ hasTwoChildren curr = true ∧
        decodeText bits root = some out ∧ out.length ≤ bits.length ∧
        ∀ bit : CChar, ∃ next out', decodeStep root (curr, out) bit = some (next, out') ∧
          next ∈ nodes root ∧ hasTwoChildren next = true ∧
          (out' = out ∨ (∃ d, out' = out ++ [d] ∧ next = root)) := by
  have hne : freqTable ≠ [] := by
    intro h
    rw [h] at hk
    simp at hk
  obtain ⟨root, hbuild, hwf, hleaves⟩ := buildHuffmanTree_spec tie freqTable hne
  have hroot : hasTwoChildren root = true := by
    cases hwf with
    | leaf d f =>
      have := hleaves.length_eq
      simp [leaves] at this
      omega
    | inner l r hl hr => simp [hasTwoChildren, hl.ne_null, hr.ne_null]
  have hself : root ∈ nodes root := by
    cases hwf with
    | leaf => simp [hasTwoChildren] at hroot
    | inner => exact mem_nodes_self _ _ _ _
  refine ⟨root, hbuild, hroot, ?_⟩
  intro bits
  obtain ⟨curr, out, hrun, hmem, hcurr, hlen⟩ :=
    decodeRun_spec hwf hroot bits root [] hself hroot
  refine ⟨curr, out, hrun, hmem, hcurr, ?_, by simpa using hlen, ?_⟩
  · rw [decodeText, decodeLoop_eq_run, hrun]
    rfl
  · intro bit
    exact decodeStep_spec hwf hroot hmem hcurr out bit

/-- C20 at the table of "abc". -/
theorem decodeText_total_witness :
    2 ≤ ([(97, 1), (98, 1), (99, 1)] : FreqTable).length ∧
    ∃ root, buildHuffmanTree tieFirst [(97, 1), (98, 1), (99, 1)] = some root ∧
      hasTwoChildren root = true ∧
      ∀ bits : CString, ∃ curr out,
        decodeRun root bits (root, []) = some (curr, out) ∧
        curr ∈ nodes root ∧ hasTwoChildren curr = true ∧
        decodeText bits root = some out ∧ out.length ≤ bits.length ∧
        ∀ bit : CChar, ∃ next out', decodeStep root (curr, out) bit = some (next, out') ∧
          next ∈ nodes root ∧ hasTwoChildren next = true ∧
          (out' = out ∨ (∃ d, out' = out ++ [d] ∧ next = root)) :=
  ⟨by decide, decodeText_total tieFirst _ (by decide)⟩

/-! ## The merge loop, iteration by iteration -/

/-- One execution of the loop body on a queue of at least two nodes. -/
theorem mergeStep_spec (tie : PQ → Nat) (pq : PQ) (hlen : 1 < pq.length) :
    ∃ left right, pqTop tie pq = some left ∧
      (∀ y ∈ pq, left.frequency ≤ y.frequency) ∧
      pqTop tie (pqPop tie pq) = some right ∧
      (∀ y ∈ pqPop tie pq, right.frequency ≤ y.frequency) ∧
      pq.Perm (left :: right :: pqPop tie (pqPop tie pq)) ∧
      mergeStep tie pq = some (pqPop tie (pqPop tie pq) ++
        [.node NUL (wrap32 (left.frequency + right.frequency)) left right]) ∧
      (pqPop tie (pqPop tie pq) ++
        [HuffmanNode.node NUL (wrap32 (left.frequency + right.frequency)) left right]).length + 1
        = pq.length := by
  have hne : pq ≠ [] := by
    intro h
    rw [h] at hlen
    simp at hlen
  obtain ⟨x, hx, hperm1, hmin1⟩ := pqTop_spec tie pq hne
  have hlen1 : (pqPop tie pq).length + 1 = pq.length := by
    simpa using hperm1.length_eq.symm
  have hne1 : pqPop tie pq ≠ [] := by
    intro h
    rw [h] at hlen1
    simp at hlen1
    omega
  obtain ⟨y, hy, hperm2, hmin2⟩ := pqTop_spec tie (pqPop tie pq) hne1
  have hlen2 : (pqPop tie (pqPop tie pq)).length + 1 = (pqPop tie pq).length := by
    simpa using hperm2.length_eq.symm
  refine ⟨x, y, hx, hmin1, hy, hmin2, hperm1.trans (hperm2.cons x), ?_, ?_⟩
  · simp [mergeStep, hx, hy, pqPush]
  · simp only [List.length_append, List.length_singleton]
    omega

theorem mergeLoop_succ (tie : PQ → Nat) (fuel : Nat) (pq : PQ) (hlen : 1 < pq.length) :
    mergeLoop tie (fuel + 1) pq = (mergeStep tie pq).bind (mergeLoop tie fuel) := by
  obtain ⟨x, y, hx, -, hy, -, -, hstep, -⟩ := mergeStep_spec tie pq hlen
  rw [hstep]
  simp [mergeLoop, hlen, hx, hy, pqPush]

theorem mergeSteps_succ (tie : PQ → Nat) (n : Nat) :
    ∀ pq : PQ, mergeSteps tie (n + 1) pq = (mergeSteps tie n pq).bind (mergeStep tie) := by
  induction n with
  | zero =>
    intro pq
    cases h : mergeStep tie pq <;> simp [mergeSteps, h]
  | succ k ih =>
    intro pq
    cases h : mergeStep tie pq with
    | none => simp [mergeSteps, h]
    | some q =>
      have h1 : mergeSteps tie (k + 1 + 1) pq = mergeSteps tie (k + 1) q := by
        simp [mergeSteps, h]
      have h2 : mergeSteps tie (k + 1) pq = mergeSteps tie k q := by
        simp [mergeSteps, h]
      rw [h1, h2, ih q]

theorem mergeSteps_length (tie : PQ → Nat) (n : Nat) :
    ∀ pq : PQ, n < pq.length →
      ∃ q, mergeSteps tie n pq = some q ∧ q.length = pq.length - n := by
  induction n with
  | zero => intro pq _; exact ⟨pq, rfl, rfl⟩
  | succ k ih =>
    intro pq hlt
    obtain ⟨x, y, -, -, -, -, -, hstep, hlen⟩ := mergeStep_spec tie pq (by omega)
    obtain ⟨q, hq, hqlen⟩ := ih _ (by omega :
      k < (pqPop tie (pqPop tie pq) ++
        [HuffmanNode.node NUL (wrap32 (x.frequency + y.frequency)) x y]).length)
    refine ⟨q, ?_, by omega⟩
    simp [mergeSteps, hstep, hq]

/-- The loop `while (pq.size() > 1)` on a queue of `n + 1` nodes is `n` executions of
its body. -/
theorem mergeLoop_eq_steps (tie : PQ → Nat) (n : Nat) :
    ∀ (pq : PQ) (fuel : Nat), pq.length = n + 1 → n ≤ fuel →
      mergeLoop tie fuel pq = mergeSteps tie n pq := by
  induction n with
  | zero =>
    intro pq fuel hlen _
    cases fuel <;> simp [mergeLoop, mergeSteps, hlen]
  | succ k ih =>
    intro pq fuel hlen hfuel
    obtain ⟨f, rfl⟩ : ∃ f, fuel = f + 1 := ⟨fuel - 1, by omega⟩
    obtain ⟨x, y, -, -, -, -, -, hstep, hlen2⟩ := mergeStep_spec tie pq (by omega)
    rw [mergeLoop_succ tie f pq (by omega), hstep]
    simp only [Option.some_bind, mergeSteps, hstep]
    exact ih _ f (by omega) (by omega)

/-- C14: for every non-empty table of `k` entries, the loop of `buildHuffmanTree` is
`k - 1` executions of its body, after which the single node left is returned as root.
In each of them the queue has more than one node; the first node removed has the
least frequency of the queue and the second the least frequency of what is left; the
new node has the first as left and the second as right child; and the queue is
shorter by exactly one afterwards. -/
theorem greedy_merge (tie : PQ → Nat) (freqTable : FreqTable) (hne : freqTable ≠ []) :
    ∃ root, buildHuffmanTree tie freqTable = some root ∧
      mergeLoop tie (pushLeaves freqTable).length (pushLeaves freqTable) =
        mergeSteps tie (freqTable.length - 1) (pushLeaves freqTable) ∧
      mergeSteps tie (freqTable.length - 1) (pushLeaves freqTable) = some [root] ∧
      ∀ j, j < freqTable.length - 1 → ∃ pq left right,
        mergeSteps tie j (pushLeaves freqTable) = some pq ∧
        pq.length = freqTable.length - j ∧ 1 < pq.length ∧
        pqTop tie pq = some left ∧ (∀ y ∈ pq, left.frequency ≤ y.frequency) ∧
        pqTop tie (pqPop tie pq) = some right ∧
        (∀ y ∈ pqPop tie pq, right.frequency ≤ y.frequency) ∧
        pq.Perm (left :: right :: pqPop tie (pqPop tie pq)) ∧
        mergeSteps tie (j + 1) (pushLeaves freqTable) =
          some (pqPop tie (pqPop tie pq) ++
            [.node NUL (wrap32 (left.frequency + right.frequency)) left right]) ∧
        (pqPop tie (pqPop tie pq) ++
          [HuffmanNode.node NUL (wrap32 (left.frequency + right.frequency)) left right]).length + 1
          = pq.length := by
  have hlen : (pushLeaves freqTable).length = freqTable.length := by
    rw [pushLeaves_eq, List.length_map]
  have hpos : 0 < freqTable.length := List.length_pos.mpr hne
  obtain ⟨root, hroot, -, -⟩ := buildHuffmanTree_spec tie freqTable hne
  have hloop : mergeLoop tie (pushLeaves freqTable).length (pushLeaves freqTable) =
      mergeSteps tie (freqTable.length - 1) (pushLeaves freqTable) :=
    mergeLoop_eq_steps tie (freqTable.length - 1) _ _ (by omega) (by omega)
  obtain ⟨q, hq, hqlen⟩ := mergeSteps_length tie (freqTable.length - 1)
    (pushLeaves freqTable) (by omega)
  obtain ⟨r, rfl⟩ : ∃ r, q = [r] := by
    match q, hqlen with
    | [r], _ => exact ⟨r, rfl⟩
    | [], h => simp at h; omega
    | _ :: _ :: _, h => simp at h; omega
  have hr : root = r := by
    have h := hroot
    simp only [buildHuffmanTree, hloop, hq, pqTop_singleton] at h
    exact (Option.some.inj h).symm
  subst hr
  refine ⟨root, hroot, hloop, hq, ?_⟩
  intro j hj
  obtain ⟨pq, hpq, hpqlen⟩ := mergeSteps_length tie j (pushLeaves freqTable) (by omega)
  have hgt : 1 < pq.length := by omega
  obtain ⟨x, y, hx, hminx, hy, hminy, hperm, hstep, hshort⟩ := mergeStep_spec tie pq hgt
  refine ⟨pq, x, y, hpq, by omega, hgt, hx, hminx, hy, hminy, hperm, ?_, hshort⟩
  rw [mergeSteps_succ, hpq]
  exact hstep

/-- C14 at the table of "abracadabra". -/
theorem greedy_merge_witness :
    ([(97, 5), (98, 2), (114, 2), (99, 1), (100, 1)] : FreqTable) ≠ [] ∧
    ∃ root, buildHuffmanTree tieFirst [(97, 5), (98, 2), (114, 2), (99, 1), (100, 1)]
        = some root ∧
      mergeSteps tieFirst 4 (pushLeaves [(97, 5), (98, 2), (114, 2), (99, 1), (100, 1)])
        = some [root] := by
  obtain ⟨root, h1, -, h3, -⟩ :=
    greedy_merge tieFirst [(97, 5), (98, 2), (114, 2), (99, 1), (100, 1)] (by simp)
  exact ⟨by simp, root, h1, h3⟩

/-! ## Codes and paths -/

/-- C16, as stated, fails: in the tree built for the table `(NUL, 3), (b, 1)` the leaf
holding `NUL` is at path "1" but gets no entry; and in a tree whose root has children
and holds `x`, the root gets the entry "" although it is no leaf. -/
theorem code_table_not_all_leaf_paths :
    (∃ root, buildHuffmanTree tieFirst [(0, 3), (98, 1)] = some root ∧
      ((0 : CChar), [c1]) ∈ leafCodes root ∧ codeTableOf root 0 = none) ∧
    codeTableOf (.node 120 2 (.node 97 1 .null .null) (.node 98 1 .null .null)) 120
      = some [] ∧
    (120 : CChar) ∉ (leafCodes
      (.node 120 2 (.node 97 1 .null .null) (.node 98 1 .null .null))).map Prod.fst :=
  ⟨⟨.node 0 4 (.node 98 1 .null .null) (.node 0 3 .null .null),
      by decide, by decide, by decide⟩, by decide, by decide⟩

/-- C16, amended: for the tree built from any non-empty table (distinct keys),
whatever the tie-breaking, the code table filled by `buildHuffmanCodeTable` has the
entry `p` for a symbol `s` exactly when `s` is not `NUL` and `p` is the path from the
root to the leaf holding `s` ('0' for left, '1' for right); so entries are recorded for
leaves only. For a null root the table is left as it was, hence empty. -/
theorem code_is_leaf_path (tie : PQ → Nat) (freqTable : FreqTable)
    (hnd : (freqTable.map Prod.fst).Nodup) (hne : freqTable ≠ []) :
    ∃ root, buildHuffmanTree tie freqTable = some root ∧
      (∀ (s : CChar) (p : CString),
        codeTableOf root s = some p ↔ s ≠ NUL ∧ (s, p) ∈ leafCodes root) ∧
      (∀ (tbl : CodeTable) (code : CString), buildHuffmanCodeTable .null tbl code = tbl) ∧
      ∀ s : CChar, codeTableOf .null s = none := by
  obtain ⟨root, hroot, hwf, hleaves⟩ := buildHuffmanTree_spec tie freqTable hne
  have hkeys : ((leafCodes root).map Prod.fst).Nodup := by
    rw [leafCodes_keys]
    exact (hleaves.map Prod.fst).nodup_iff.mpr hnd
  refine ⟨root, hroot, ?_, fun _ _ => rfl, fun _ => rfl⟩
  intro s p
  constructor
  · exact codeTableOf_sound hwf s p
  · rintro ⟨hs, hmem⟩
    have := buildHuffmanCodeTable_leaf hwf CodeTable.empty [] s p hkeys hmem hs
    simpa [codeTableOf] using this

/-- C16, amended, at the table of "abracadabra". -/
theorem code_is_leaf_path_witness :
    (([(97, 5), (98, 2), (114, 2), (99, 1), (100, 1)] : FreqTable).map Prod.fst).Nodup ∧
    ([(97, 5), (98, 2), (114, 2), (99, 1), (100, 1)] : FreqTable) ≠ [] ∧
    ∃ root, buildHuffmanTree tieFirst [(97, 5), (98, 2), (114, 2), (99, 1), (100, 1)]
        = some root ∧
      (∀ (s : CChar) (p : CString),
        codeTableOf root s = some p ↔ s ≠ NUL ∧ (s, p) ∈ leafCodes root) ∧
      (∀ (tbl : CodeTable) (code : CString), buildHuffmanCodeTable .null tbl code = tbl) ∧
      ∀ s : CChar, codeTableOf .null s = none :=
  ⟨by decide, by simp, code_is_leaf_path tieFirst _ (by decide) (by simp)⟩

/-! ## Size of the encoded text -/

theorem WellFormed.leaves_length_pos {t : HuffmanNode} (hwf : WellFormed t) :
    1 ≤ (leaves t).length := by
  induction hwf with
  | leaf d f => simp [leaves]
  | inner l r hl hr ihl ihr =>
    rw [leaves_inner _ _ l r hl.ne_null, List.length_append]
    omega

theorem WellFormed.leaf_of_one {t : HuffmanNode} (hwf : WellFormed t)
    (h : (leaves t).length = 1) : ∃ d f, t = .node d f .null .null := by
  cases hwf with
  | leaf d f => exact ⟨d, f, rfl⟩
  | inner l r hl hr =>
    rw [leaves_inner _ _ l r hl.ne_null, List.length_append] at h
    have := hl.leaves_length_pos
    have := hr.leaves_length_pos
    omega

theorem flatMap_length_of_unit (codeTable : CodeTable) (text : CString)
    (h : ∀ c ∈ text, ((codeTable c).getD []).length = 1) :
    (text.flatMap (fun c => (codeTable c).getD [])).length = text.length := by
  induction text with
  | nil => rfl
  | cons c rest ih =>
    rw [List.flatMap_cons, List.length_append, h c (List.mem_cons_self _ _),
      ih (fun d hd => h d (List.mem_cons_of_mem _ hd))]
    simp [Nat.add_comm]

/-- C12, as stated, fails: the text "\0bb" has exactly two distinct symbols, but
`encodeText` has no output for it, `NUL` having no code. -/
theorem two_symbols_with_nul_no_output :
    ∃ root, buildHuffmanTree tieFirst (buildFrequencyTable [0, 98, 98]) = some root ∧
      encodeText [0, 98, 98] (codeTableOf root) = none :=
  ⟨.node 0 3 (.node 0 1 .null .null) (.node 98 2 .null .null), by decide, by decide⟩

theorem path_length_of_two_leaves {l r : HuffmanNode} (hl : WellFormed l)
    (hr : WellFormed r) (h1 : (leaves l).length = 1) (h2 : (leaves r).length = 1)
    (d : CChar) (f : Int) (c : CChar) (p : CString)
    (hmem : (c, p) ∈ leafCodes (.node d f l r)) : p.length = 1 := by
  obtain ⟨d1, f1, rfl⟩ := hl.leaf_of_one h1
  obtain ⟨d2, f2, rfl⟩ := hr.leaf_of_one h2
  rcases mem_leafCodes_inner hl.ne_null hmem with ⟨q, rfl, hq⟩ | ⟨q, rfl, hq⟩
  · have : c = d1 ∧ q = [] := by simpa [leafCodes_leaf] using hq
    simp [this.2]
  · have : c = d2 ∧ q = [] := by simpa [leafCodes_leaf] using hq
    simp [this.2]

/-- C12, amended: for every text made of exactly two distinct symbols, neither of them
`NUL`, whatever the enumeration order of its table and the tie-breaking, `encodeText`
returns one character ("bit") per symbol, which is strictly less than 8 times the
length of the text. -/
theorem two_symbols_compact (tie : PQ → Nat) (x : CString) (freqTable : FreqTable)
    (hperm : freqTable.Perm (buildFrequencyTable x)) (hnul : NUL ∉ x)
    (a b : CChar) (ha : a ∈ x) (hb : b ∈ x) (hab : a ≠ b)
    (honly : ∀ c ∈ x, c = a ∨ c = b) :
    ∃ root e, buildHuffmanTree tie freqTable = some root ∧
      encodeText x (codeTableOf root) = some e ∧
      e.length = x.length ∧ e.length < 8 * x.length := by
  obtain ⟨root, hroot, hwf, hleaves, hnd, hmem⟩ :=
    buildHuffmanTree_of_text tie x freqTable hperm (List.ne_nil_of_mem ha)
  have hkeys : ((leafCodes root).map Prod.fst).Perm [a, b] := by
    rw [List.perm_ext_iff_of_nodup hnd (by simp [hab])]
    intro c
    rw [hmem c]
    constructor
    · intro hc
      rcases honly c hc with rfl | rfl <;> simp
    · intro hc
      rcases List.mem_pair.mp hc with rfl | rfl
      · exact ha
      · exact hb
  have hlen : (leaves root).length = 2 := by
    have := hkeys.length_eq
    rw [leafCodes_keys, List.length_map] at this
    simpa using this
  have hcodes : ∀ c ∈ x, (codeTableOf root c).isSome ∧
      ((codeTableOf root c).getD []).length = 1 := by
    intro c hc
    obtain ⟨e, he, rfl⟩ := List.mem_map.mp ((hmem c).mpr hc)
    have hne : e.1 ≠ NUL := fun h => hnul (h ▸ hc)
    have hcode := buildHuffmanCodeTable_leaf hwf CodeTable.empty [] e.1 e.2 hnd he hne
    have hp : e.2.length = 1 := by
      obtain ⟨l, r, hl, hr, rfl⟩ :=
        hwf.inner_of_two a b ((hmem a).mpr ha) ((hmem b).mpr hb) hab
      rw [leaves_inner _ _ l r hl.ne_null, List.length_append] at hlen
      have h1 := hl.leaves_length_pos
      have h2 := hr.leaves_length_pos
      exact path_length_of_two_leaves hl hr (by omega) (by omega) _ _ e.1 e.2 he
    rw [codeTableOf, hcode]
    simpa using hp
  have hflat := flatMap_length_of_unit (codeTableOf root) x (fun c hc => (hcodes c hc).2)
  have hx : 0 < x.length := List.length_pos_of_mem ha
  refine ⟨root, x.flatMap (fun c => (codeTableOf root c).getD []), hroot, ?_, hflat, ?_⟩
  · rw [encodeText, encodeLoop_eq, if_pos (fun c hc => (hcodes c hc).1)]
    rfl
  · omega

/-- C12, amended, at "aaaaaaaab": 9 bits, less than 72. -/
theorem two_symbols_compact_witness :
    NUL ∉ ([97, 97, 97, 97, 97, 97, 97, 97, 98] : CString) ∧
    ∃ root e,
      buildHuffmanTree tieFirst (buildFrequencyTable [97, 97, 97, 97, 97, 97, 97, 97, 98])
        = some root ∧
      encodeText [97, 97, 97, 97, 97, 97, 97, 97, 98] (codeTableOf root) = some e ∧
      e.length = ([97, 97, 97, 97, 97, 97, 97, 97, 98] : CString).length ∧
      e.length < 8 * ([97, 97, 97, 97, 97, 97, 97, 97, 98] : CString).length :=
  ⟨by decide,
    two_symbols_compact tieFirst [97, 97, 97, 97, 97, 97, 97, 97, 98] _ (List.Perm.refl _)
      (by decide) 97 98 (by simp) (by simp) (by decide) (by simp)⟩

/-! ## The container -/

/-- C11 fails in the code on the text "a a": its table has the entries `a` 2 and
space 1, its encoded text is "101", and `compressFile` writes "2\na 2\n  1\n101".
Reading that, `>> c` skips the space that is the second symbol and takes the `1` of its
count as symbol, and `>> freq` then reads the encoded text as the count 101: the table
read back has `1` with count 101 and no space, and no encoded text is left. With the
table written in the other order, space first, the read of the count fails on `a`: the
table read back is `1` with count 0, and the rest of the file is taken as encoded text. -/
theorem container_not_reversible :
    buildFrequencyTable [97, 32, 97] = [(97, 2), (32, 1)] ∧
    (buildHuffmanTree tieFirst [(97, 2), (32, 1)]).bind
      (fun root => encodeText [97, 32, 97] (codeTableOf root)) = some [49, 48, 49] ∧
    writeContainer [(97, 2), (32, 1)] [49, 48, 49] =
      [50, 10, 97, 32, 50, 10, 32, 32, 49, 10, 49, 48, 49] ∧
    readContainer (writeContainer [(97, 2), (32, 1)] [49, 48, 49]) =
      some ([(97, 2), (49, 101)], []) ∧
    readContainer (writeContainer [(32, 1), (97, 2)] [49, 48, 49]) =
      some ([(49, 0)], [97, 32, 50, 10, 49, 48, 49]) := by
  decide

/-! ## Optimality of the built tree -/

/-- The deepest level below a join, taken on the left. -/
theorem Shape.deepest_left (s t : Multiset Nat) (D : Nat) (rest : Multiset Nat)
    (hs : s = (D + 1) ::ₘ (D + 1) ::ₘ rest) (hbs : ∀ d ∈ s, d ≤ D + 1)
    (hshape : Shape (D ::ₘ rest)) (ht : Shape t) (hbt : ∀ d ∈ t, d ≤ D + 1) :
    ∃ D2 rest2, s.map Nat.succ + t.map Nat.succ = (D2 + 1) ::ₘ (D2 + 1) ::ₘ rest2 ∧
      (∀ d ∈ s.map Nat.succ + t.map Nat.succ, d ≤ D2 + 1) ∧ Shape (D2 ::ₘ rest2) := by
  refine ⟨D + 1, rest.map Nat.succ + t.map Nat.succ, ?_, ?_, ?_⟩
  · rw [hs]
    simp
  · intro d hd
    simp only [Multiset.mem_add, Multiset.mem_map] at hd
    rcases hd with ⟨e, he, rfl⟩ | ⟨e, he, rfl⟩
    · have := hbs e he
      omega
    · have := hbt e he
      omega
  · have := Shape.join (D ::ₘ rest) t hshape ht
    simpa using this

theorem Shape.deepest_right (s t : Multiset Nat) (D : Nat) (rest : Multiset Nat)
    (ht : t = (D + 1) ::ₘ (D + 1) ::ₘ rest) (hbt : ∀ d ∈ t, d ≤ D + 1)
    (hshape : Shape (D ::ₘ rest)) (hs : Shape s) (hbs : ∀ d ∈ s, d ≤ D + 1) :
    ∃ D2 rest2, s.map Nat.succ + t.map Nat.succ = (D2 + 1) ::ₘ (D2 + 1) ::ₘ rest2 ∧
      (∀ d ∈ s.map Nat.succ + t.map Nat.succ, d ≤ D2 + 1) ∧ Shape (D2 ::ₘ rest2) := by
  refine ⟨D + 1, s.map Nat.succ + rest.map Nat.succ, ?_, ?_, ?_⟩
  · rw [ht]
    simp
  · intro d hd
    simp only [Multiset.mem_add, Multiset.mem_map] at hd
    rcases hd with ⟨e, he, rfl⟩ | ⟨e, he, rfl⟩
    · have := hbs e he
      omega
    · have := hbt e he
      omega
  · have := Shape.join s (D ::ₘ rest) hs hshape
    simpa using this

theorem Shape.deepest {s : Multiset Nat} (h : Shape s) :
    s = {0} ∨ ∃ D rest, s = (D + 1) ::ₘ (D + 1) ::ₘ rest ∧ (∀ d ∈ s, d ≤ D + 1) ∧
      Shape (D ::ₘ rest) := by
  induction h with
  | single => exact Or.inl rfl
  | join s t hs ht ihs iht =>
    right
    rcases ihs with hs0 | ⟨Ds, rs, hseq, hbs, hshs⟩
    · rcases iht with ht0 | ⟨Dt, rt, hteq, hbt, hsht⟩
      · rw [hs0, ht0]
        exact ⟨0, 0, by simp, by simp, Shape.single⟩
      · exact Shape.deepest_right s t Dt rt hteq hbt hsht hs (by rw [hs0]; simp)
    · rcases iht with ht0 | ⟨Dt, rt, hteq, hbt, hsht⟩
      · exact Shape.deepest_left s t Ds rs hseq hbs hshs ht (by rw [ht0]; simp)
      · by_cases hcmp : Dt ≤ Ds
        · exact Shape.deepest_left s t Ds rs hseq hbs hshs ht
            (fun d hd => le_trans (hbt d hd) (by omega))
        · exact Shape.deepest_right s t Dt rt hteq hbt hsht hs
            (fun d hd => le_trans (hbs d hd) (by omega))

/-- Giving the greatest depth to an entry of least weight does not raise the cost. -/
theorem depthCost_swap (m : Multiset (Int × Nat)) (a : Int) (da D : Nat)
    (hmem : (a, da) ∈ m) (hmin : ∀ e ∈ m, a ≤ e.1)
    (hD : D ∈ m.map Prod.snd) (hmax : ∀ e ∈ m, e.2 ≤ D) :
    ∃ r : Multiset (Int × Nat), m.map Prod.fst = a ::ₘ r.map Prod.fst ∧
      m.map Prod.snd = D ::ₘ r.map Prod.snd ∧
      depthCost ((a, D) ::ₘ r) ≤ depthCost m := by
  by_cases hda : da = D
  · subst hda
    refine ⟨m.erase (a, da), ?_, ?_, ?_⟩
    · conv_lhs => rw [← Multiset.cons_erase hmem]
      simp
    · conv_lhs => rw [← Multiset.cons_erase hmem]
      simp
    · rw [Multiset.cons_erase hmem]
  · obtain ⟨e, he, heD⟩ := Multiset.mem_map.mp hD
    have hne : e ≠ (a, da) := by
      intro h
      rw [h] at heD
      exact hda heD
    have he2 : e ∈ m.erase (a, da) := (Multiset.mem_erase_of_ne hne).mpr he
    have hm : m = (a, da) ::ₘ e ::ₘ (m.erase (a, da)).erase e := by
      rw [Multiset.cons_erase he2, Multiset.cons_erase hmem]
    obtain ⟨c, d⟩ := e
    simp only at heD
    subst heD
    have hac : a ≤ c := hmin (c, d) he
    have hdD : da ≤ d := hmax (a, da) hmem
    refine ⟨(c, da) ::ₘ (m.erase (a, da)).erase (c, d), ?_, ?_, ?_⟩
    · conv_lhs => rw [hm]
      simp
    · conv_lhs => rw [hm]
      simp [Multiset.cons_swap]
    · conv_rhs => rw [hm]
      simp only [depthCost, Multiset.map_cons, Multiset.sum_cons]
      have h1 : (0 : Int) ≤ (c - a) * ((d : Int) - (da : Int)) :=
        mul_nonneg (sub_nonneg.mpr hac) (sub_nonneg.mpr (by exact_mod_cast hdD))
      nlinarith [h1]

/-- Merging two entries of least weight: from any depth assignment of given shape to
the weights `a, b, w` there is one to `a + b, w` that costs `a + b` less. -/
theorem depthCost_merge (m : Multiset (Int × Nat)) (a b : Int) (w : Multiset Int)
    (hw : m.map Prod.fst = a ::ₘ b ::ₘ w) (hshape : Shape (m.map Prod.snd))
    (ha : ∀ v ∈ b ::ₘ w, a ≤ v) (hb : ∀ v ∈ w, b ≤ v) :
    ∃ m2 : Multiset (Int × Nat), m2.map Prod.fst = (a + b) ::ₘ w ∧
      Shape (m2.map Prod.snd) ∧ depthCost m2 + a + b ≤ depthCost m := by
  rcases hshape.deepest with h0 | ⟨D, rest, hdepth, hbound, hsh⟩
  · have h1 := congrArg Multiset.card hw
    have h2 := congrArg Multiset.card h0
    simp at h1 h2
    omega
  · -- the entry of weight `a`
    have hamem : a ∈ m.map Prod.fst := by rw [hw]; simp
    obtain ⟨ea, hea, hea1⟩ := Multiset.mem_map.mp hamem
    obtain ⟨a0, da⟩ := ea
    simp only at hea1
    subst hea1
    have hmin : ∀ e ∈ m, a0 ≤ e.1 := by
      intro e he
      have : e.1 ∈ m.map Prod.fst := Multiset.mem_map_of_mem _ he
      rw [hw] at this
      rcases Multiset.mem_cons.mp this with h | h
      · rw [h]
      · exact ha _ h
    have hmax : ∀ e ∈ m, e.2 ≤ D + 1 := fun e he =>
      hbound _ (Multiset.mem_map_of_mem _ he)
    obtain ⟨r1, hr1w, hr1d, hr1c⟩ := depthCost_swap m a0 da (D + 1) hea hmin
      (by rw [hdepth]; simp) hmax
    have hr1w2 : r1.map Prod.fst = b ::ₘ w := by
      rw [hw] at hr1w
      exact ((Multiset.cons_inj_right a0).mp hr1w).symm
    have hr1d2 : r1.map Prod.snd = (D + 1) ::ₘ rest := by
      rw [hdepth] at hr1d
      exact ((Multiset.cons_inj_right (D + 1)).mp hr1d).symm
    -- the entry of weight `b`
    have hbmem : b ∈ r1.map Prod.fst := by rw [hr1w2]; simp
    obtain ⟨eb, heb, heb1⟩ := Multiset.mem_map.mp hbmem
    obtain ⟨b0, db⟩ := eb
    simp only at heb1
    subst heb1
    have hmin2 : ∀ e ∈ r1, b0 ≤ e.1 := by
      intro e he
      have : e.1 ∈ r1.map Prod.fst := Multiset.mem_map_of_mem _ he
      rw [hr1w2] at this
      rcases Multiset.mem_cons.mp this with h | h
      · rw [h]
      · exact hb _ h
    have hmax2 : ∀ e ∈ r1, e.2 ≤ D + 1 := by
      intro e he
      have : e.2 ∈ r1.map Prod.snd := Multiset.mem_map_of_mem _ he
      apply hbound
      rw [hr1d]
      exact Multiset.mem_cons_of_mem this
    obtain ⟨r2, hr2w, hr2d, hr2c⟩ := depthCost_swap r1 b0 db (D + 1) heb hmin2
      (by rw [hr1d2]; simp) hmax2
    have hr2w2 : r2.map Prod.fst = w := by
      rw [hr1w2] at hr2w
      exact ((Multiset.cons_inj_right b0).mp hr2w).symm
    have hr2d2 : r2.map Prod.snd = rest := by
      rw [hr1d2] at hr2d
      exact ((Multiset.cons_inj_right (D + 1)).mp hr2d).symm
    refine ⟨(a0 + b0, D) ::ₘ r2, ?_, ?_, ?_⟩
    · simp [hr2w2]
    · simpa [hr2d2] using hsh
    · simp only [depthCost, Multiset.map_cons, Multiset.sum_cons] at hr1c hr2c ⊢
      push_cast at hr1c hr2c ⊢
      nlinarith [hr1c, hr2c]

theorem leafDepths_succ (t : HuffmanNode) :
    ∀ k : Nat, leafDepths t (k + 1) = (leafDepths t k).map (fun e => (e.1, e.2 + 1)) := by
  induction t with
  | null => intro k; rfl
  | node d f l r ihl ihr =>
    intro k
    by_cases h : l = .null ∧ r = .null
    · simp [leafDepths, h]
    · simp only [leafDepths, h, if_false, List.map_append, ihl (k + 1), ihr (k + 1)]

theorem leafDepths_weights (t : HuffmanNode) :
    ∀ k : Nat, (leafDepths t k).map Prod.fst = (leaves t).map Prod.snd := by
  induction t with
  | null => intro k; rfl
  | node d f l r ihl ihr =>
    intro k
    by_cases h : l = .null ∧ r = .null
    · simp [leafDepths, leaves, h]
    · simp only [leafDepths, leaves, h, if_false, List.map_append, ihl, ihr]

theorem weightedPathLength_eq_depthCost (t : HuffmanNode) :
    ∀ k : Nat, weightedPathLength t k = depthCost (leafDepths t k : Multiset (Int × Nat)) := by
  induction t with
  | null => intro k; simp [weightedPathLength, leafDepths, depthCost]
  | node d f l r ihl ihr =>
    intro k
    by_cases h : l = .null ∧ r = .null
    · simp [weightedPathLength, leafDepths, depthCost, h]
    · simp only [weightedPathLength, leafDepths, h, if_false, ihl, ihr]
      simp [depthCost]

/-- The leaf depths of a strictly binary tree form a shape. -/
theorem shape_of_strictlyBinary (t : HuffmanNode) (h : strictlyBinary t = true) :
    Shape (((leafDepths t 0).map Prod.snd : List Nat) : Multiset Nat) := by
  induction t with
  | null => simp [strictlyBinary] at h
  | node d f l r ihl ihr =>
    by_cases hleaf : l = .null ∧ r = .null
    · simp only [leafDepths, hleaf, and_self, if_true, List.map_cons, List.map_nil]
      exact Shape.single
    · have hlr : strictlyBinary l = true ∧ strictlyBinary r = true := by
        simp only [strictlyBinary, Bool.or_eq_true, Bool.and_eq_true, decide_eq_true_eq] at h
        rcases h with h | h
        · exact absurd h hleaf
        · exact h
      have := Shape.join _ _ (ihl hlr.1) (ihr hlr.2)
      simp only [leafDepths, hleaf, if_false, leafDepths_succ l 0, leafDepths_succ r 0,
        List.map_append, List.map_map]
      simpa [Function.comp_def] using this

theorem weightedPathLength_succ (t : HuffmanNode) :
    ∀ k : Nat, weightedPathLength t (k + 1) =
      weightedPathLength t k + ((leaves t).map Prod.snd).sum := by
  induction t with
  | null => intro k; simp [weightedPathLength, leaves]
  | node d f l r ihl ihr =>
    intro k
    by_cases h : l = .null ∧ r = .null
    · simp only [weightedPathLength, leaves, h, and_self, if_true, List.map_cons,
        List.map_nil, List.sum_cons, List.sum_nil]
      push_cast
      ring
    · simp only [weightedPathLength, leaves, h, if_false, ihl (k + 1), ihr (k + 1),
        List.map_append, List.sum_append]
      ring

theorem depthCost_nonneg (m : Multiset (Int × Nat)) (h : ∀ e ∈ m, 0 ≤ e.1) :
    0 ≤ depthCost m := by
  apply Multiset.sum_nonneg
  intro v hv
  obtain ⟨e, he, rfl⟩ := Multiset.mem_map.mp hv
  exact mul_nonneg (h e he) (Int.ofNat_nonneg _)

/-- Running the loop body `n` times on a queue of `n + 1` well-formed nodes, whose
frequencies are not negative, add up to less than `2^31` and are the sums of their
leaves, leaves one tree, whose weighted path length is at most the path lengths already
in the queue plus the cost of any depth assignment, of the shape of a strictly binary
tree, to the frequencies of the queue. -/
theorem mergeSteps_optimal (tie : PQ → Nat) (n : Nat) :
    ∀ pq : PQ, pq.length = n + 1 → (∀ t ∈ pq, WellFormed t) →
      (∀ t ∈ pq, 0 ≤ t.frequency) →
      (pq.map HuffmanNode.frequency).sum < 2147483648 →
      (∀ t ∈ pq, t.frequency = ((leaves t).map Prod.snd).sum) →
      ∃ r, mergeSteps tie n pq = some [r] ∧
        ∀ m : Multiset (Int × Nat),
          m.map Prod.fst = ((pq.map HuffmanNode.frequency : List Int) : Multiset Int) →
          Shape (m.map Prod.snd) →
          weightedPathLength r 0 ≤
            (pq.map (fun t => weightedPathLength t 0)).sum + depthCost m := by
  induction n with
  | zero =>
    intro pq hlen _ hnn _ _
    obtain ⟨r, rfl⟩ : ∃ r, pq = [r] := by
      match pq, hlen with
      | [r], _ => exact ⟨r, rfl⟩
    refine ⟨r, rfl, ?_⟩
    intro m hm _
    have hnonneg : 0 ≤ depthCost m := by
      apply depthCost_nonneg
      intro e he
      have : e.1 ∈ m.map Prod.fst := Multiset.mem_map_of_mem _ he
      rw [hm] at this
      have h2 : e.1 = r.frequency := by simpa using this
      rw [h2]
      exact hnn r (by simp)
    simp only [List.map_cons, List.map_nil, List.sum_cons, List.sum_nil, add_zero]
    omega
  | succ k ih =>
    intro pq hlen hwf hnn hsum hex
    have hne : pq ≠ [] := by
      intro h
      rw [h] at hlen
      simp at hlen
    obtain ⟨x, hx, hperm1, hminx⟩ := pqTop_spec tie pq hne
    have hlen1 : (pqPop tie pq).length + 1 = pq.length := by
      simpa using hperm1.length_eq.symm
    have hne1 : pqPop tie pq ≠ [] := by
      intro h
      rw [h] at hlen1
      simp at hlen1
      omega
    obtain ⟨y, hy, hperm2, hminy⟩ := pqTop_spec tie (pqPop tie pq) hne1
    have hlen2 : (pqPop tie (pqPop tie pq)).length + 1 = (pqPop tie pq).length := by
      simpa using hperm2.length_eq.symm
    have hperm : pq.Perm (x :: y :: pqPop tie (pqPop tie pq)) :=
      hperm1.trans (hperm2.cons x)
    have hxmem : x ∈ pq := hperm.symm.subset (by simp)
    have hymem : y ∈ pq := hperm.symm.subset (by simp)
    have hrest : ∀ t ∈ pqPop tie (pqPop tie pq), t ∈ pq := fun t ht =>
      hperm.symm.subset (by simp [ht])
    have hx0 := hnn x hxmem
    have hy0 := hnn y hymem
    have hrest0 : 0 ≤ ((pqPop tie (pqPop tie pq)).map HuffmanNode.frequency).sum := by
      apply List.sum_nonneg
      intro v hv
      obtain ⟨t, ht, rfl⟩ := List.mem_map.mp hv
      exact hnn t (hrest t ht)
    have hsplit : (pq.map HuffmanNode.frequency).sum =
        x.frequency + (y.frequency +
          ((pqPop tie (pqPop tie pq)).map HuffmanNode.frequency).sum) := by
      rw [(hperm.map _).sum_eq]
      simp
    have hexact : wrap32 (x.frequency + y.frequency) = x.frequency + y.frequency :=
      wrap32_of_range _ (by omega) (by omega)
    have hnewfreq : (HuffmanNode.node NUL (wrap32 (x.frequency + y.frequency)) x y).frequency
        = x.frequency + y.frequency := hexact
    have hstep : mergeStep tie pq = some (pqPop tie (pqPop tie pq) ++
        [.node NUL (wrap32 (x.frequency + y.frequency)) x y]) := by
      simp [mergeStep, hx, hy, pqPush]
    obtain ⟨r, hr, hopt⟩ := ih
      (pqPop tie (pqPop tie pq) ++ [.node NUL (wrap32 (x.frequency + y.frequency)) x y])
      (by simp only [List.length_append, List.length_singleton]; omega)
      (by
        intro t ht
        rcases List.mem_append.mp ht with ht | ht
        · exact hwf t (hrest t ht)
        · rw [List.mem_singleton.mp ht]
          exact WellFormed.inner x y (hwf x hxmem) (hwf y hymem))
      (by
        intro t ht
        rcases List.mem_append.mp ht with ht | ht
        · exact hnn t (hrest t ht)
        · rw [List.mem_singleton.mp ht, hnewfreq]
          omega)
      (by
        rw [List.map_append, List.sum_append, List.map_singleton, List.sum_singleton,
          hnewfreq]
        omega)
      (by
        intro t ht
        rcases List.mem_append.mp ht with ht | ht
        · exact hex t (hrest t ht)
        · rw [List.mem_singleton.mp ht, hnewfreq,
            leaves_inner _ _ x y (hwf x hxmem).ne_null, List.map_append, List.sum_append,
            ← hex x hxmem, ← hex y hymem])
    refine ⟨r, by simp only [mergeSteps, hstep]; exact hr, ?_⟩
    intro m hm hshape
    have hfreq : ((pq.map HuffmanNode.frequency : List Int) : Multiset Int) =
        x.frequency ::ₘ y.frequency ::ₘ
          (((pqPop tie (pqPop tie pq)).map HuffmanNode.frequency : List Int) :
            Multiset Int) := by
      rw [Multiset.cons_coe, Multiset.cons_coe]
      exact Multiset.coe_eq_coe.mpr (hperm.map _)
    obtain ⟨m2, hm2w, hm2s, hm2c⟩ := depthCost_merge m x.frequency y.frequency
      (((pqPop tie (pqPop tie pq)).map HuffmanNode.frequency : List Int) : Multiset Int)
      (hm.trans hfreq) hshape
      (by
        intro v hv
        rw [Multiset.cons_coe, Multiset.mem_coe, ← List.map_cons] at hv
        obtain ⟨t, ht, rfl⟩ := List.mem_map.mp hv
        exact hminx t (hperm1.symm.subset (List.mem_cons_of_mem _ (hperm2.symm.subset ht))))
      (by
        intro v hv
        rw [Multiset.mem_coe] at hv
        obtain ⟨t, ht, rfl⟩ := List.mem_map.mp hv
        exact hminy t (hperm2.symm.subset (List.mem_cons_of_mem _ ht)))
    have hbound := hopt m2
      (by
        rw [hm2w, List.map_append, List.map_singleton, hnewfreq, Multiset.cons_coe]
        exact (Multiset.coe_eq_coe.mpr (List.perm_append_singleton _ _)).symm)
      hm2s
    have hsum2 : (pq.map (fun t => weightedPathLength t 0)).sum =
        weightedPathLength x 0 + (weightedPathLength y 0 +
          ((pqPop tie (pqPop tie pq)).map (fun t => weightedPathLength t 0)).sum) := by
      rw [(hperm.map _).sum_eq]
      simp
    have hnew : weightedPathLength (.node NUL (wrap32 (x.frequency + y.frequency)) x y) 0 =
        weightedPathLength x 0 + x.frequency + (weightedPathLength y 0 + y.frequency) := by
      simp only [weightedPathLength, (hwf x hxmem).ne_null, false_and, if_false]
      rw [weightedPathLength_succ x 0, weightedPathLength_succ y 0, ← hex x hxmem,
        ← hex y hymem]
    rw [List.map_append, List.sum_append, List.map_singleton, List.sum_singleton, hnew]
      at hbound
    rw [hsum2]
    omega

/-- C19, as stated, fails: for the table `(a, 2^30), (b, 2^30), (c, 2^30 + 1),
(d, 2^30 + 1)` the first merge gives the 32-bit sum `-2^31`, which is then the least
frequency of the queue: the tree built is a comb of weighted path length 9663676419,
while the strictly binary tree with all four leaves at depth 2 has 8589934596. -/
theorem comb_after_overflow :
    buildHuffmanTree tieFirst
      [(97, 1073741824), (98, 1073741824), (99, 1073741825), (100, 1073741825)] =
      some (.node 0 2
        (.node 0 (-1073741823)
          (.node 0 (-2147483648) (.node 97 1073741824 .null .null)
            (.node 98 1073741824 .null .null))
          (.node 99 1073741825 .null .null))
        (.node 100 1073741825 .null .null)) ∧
    weightedPathLength (.node 0 2
        (.node 0 (-1073741823)
          (.node 0 (-2147483648) (.node 97 1073741824 .null .null)
            (.node 98 1073741824 .null .null))
          (.node 99 1073741825 .null .null))
        (.node 100 1073741825 .null .null)) 0 = 9663676419 ∧
    strictlyBinary (.node 0 0
        (.node 0 0 (.node 97 1073741824 .null .null) (.node 98 1073741824 .null .null))
        (.node 0 0 (.node 99 1073741825 .null .null) (.node 100 1073741825 .null .null)))
      = true ∧
    leaves (.node 0 0
        (.node 0 0 (.node 97 1073741824 .null .null) (.node 98 1073741824 .null .null))
        (.node 0 0 (.node 99 1073741825 .null .null) (.node 100 1073741825 .null .null)))
      = [(97, 1073741824), (98, 1073741824), (99, 1073741825), (100, 1073741825)] ∧
    weightedPathLength (.node 0 0
        (.node 0 0 (.node 97 1073741824 .null .null) (.node 98 1073741824 .null .null))
        (.node 0 0 (.node 99 1073741825 .null .null) (.node 100 1073741825 .null .null)))
      0 = 8589934596 := by
  decide

/-- C19, amended: for every frequency table with at least two entries and positive
counts that add up to less than `2^31`, whatever the tie-breaking, the tree is built,
it is strictly binary with the entries of the table as leaves, and its weighted path
length (the sum over the leaves of frequency times depth) is at most that of every
strictly binary tree whose leaves are the entries of the table, each symbol with its
count. -/
theorem huffman_optimal (tie : PQ → Nat) (freqTable : FreqTable)
    (hk : 2 ≤ freqTable.length) (hpos : ∀ e ∈ freqTable, 0 < e.2)
    (hsum : (freqTable.map Prod.snd).sum < 2147483648) :
    ∃ root, buildHuffmanTree tie freqTable = some root ∧
      strictlyBinary root = true ∧ (leaves root).Perm freqTable ∧
      ∀ u : HuffmanNode, strictlyBinary u = true → (leaves u).Perm freqTable →
        weightedPathLength root 0 ≤ weightedPathLength u 0 := by
  have hlen : (pushLeaves freqTable).length = (freqTable.length - 1) + 1 := by
    rw [pushLeaves_eq, List.length_map]
    omega
  have hfreqs : (pushLeaves freqTable).map HuffmanNode.frequency = freqTable.map Prod.snd := by
    rw [pushLeaves_eq, List.map_map]
    rfl
  obtain ⟨r, hr, hopt⟩ := mergeSteps_optimal tie (freqTable.length - 1)
    (pushLeaves freqTable) hlen
    (by
      rw [pushLeaves_eq]
      intro t ht
      obtain ⟨e, -, rfl⟩ := List.mem_map.mp ht
      exact WellFormed.leaf e.1 e.2)
    (by
      rw [pushLeaves_eq]
      intro t ht
      obtain ⟨e, he, rfl⟩ := List.mem_map.mp ht
      exact le_of_lt (hpos e he))
    (by rw [hfreqs]; exact hsum)
    (by
      rw [pushLeaves_eq]
      intro t ht
      obtain ⟨e, -, rfl⟩ := List.mem_map.mp ht
      simp [HuffmanNode.new, HuffmanNode.frequency, leaves])
  have hbuild : buildHuffmanTree tie freqTable = some r := by
    simp only [buildHuffmanTree]
    rw [mergeLoop_eq_steps tie (freqTable.length - 1) _ _ hlen (by omega), hr]
    exact pqTop_singleton tie r
  have hne : freqTable ≠ [] := by
    intro h
    rw [h] at hk
    simp at hk
  obtain ⟨root, hroot, hwf, hleaves⟩ := buildHuffmanTree_spec tie freqTable hne
  have hrr : root = r := Option.some.inj (hroot.symm.trans hbuild)
  subst hrr
  refine ⟨root, hbuild, hwf.strictlyBinary, hleaves, ?_⟩
  intro u hsb hul
  have hzero : ((pushLeaves freqTable).map (fun t => weightedPathLength t 0)).sum = 0 := by
    rw [pushLeaves_eq, List.map_map]
    apply List.sum_eq_zero
    intro v hv
    obtain ⟨e, -, rfl⟩ := List.mem_map.mp hv
    simp [HuffmanNode.new, weightedPathLength]
  have h := hopt (leafDepths u 0 : Multiset (Int × Nat))
    (by
      rw [Multiset.map_coe, leafDepths_weights, hfreqs]
      exact Multiset.coe_eq_coe.mpr (hul.map _))
    (by
      rw [Multiset.map_coe]
      exact shape_of_strictlyBinary u hsb)
  rw [hzero, zero_add, ← weightedPathLength_eq_depthCost] at h
  exact h

/-- C19, amended, at the table of "abracadabra". -/
theorem huffman_optimal_witness :
    2 ≤ ([(97, 5), (98, 2), (114, 2), (99, 1), (100, 1)] : FreqTable).length ∧
    (∀ e ∈ ([(97, 5), (98, 2), (114, 2), (99, 1), (100, 1)] : FreqTable), 0 < e.2) ∧
    (([(97, 5), (98, 2), (114, 2), (99, 1), (100, 1)] : FreqTable).map Prod.snd).sum
      < 2147483648 ∧
    ∃ root, buildHuffmanTree tieFirst [(97, 5), (98, 2), (114, 2), (99, 1), (100, 1)]
        = some root ∧
      strictlyBinary root = true ∧
      (leaves root).Perm [(97, 5), (98, 2), (114, 2), (99, 1), (100, 1)] ∧
      ∀ u : HuffmanNode, strictlyBinary u = true →
        (leaves u).Perm [(97, 5), (98, 2), (114, 2), (99, 1), (100, 1)] →
        weightedPathLength root 0 ≤ weightedPathLength u 0 :=
  ⟨by decide, by decide, by decide,
    huffman_optimal tieFirst _ (by decide) (by decide) (by decide)⟩

end Huffman
